import Mathlib

/-!
# prestgo: query interpolation

A shallow embedding of `stmt.go` (`queryInterpolate`, `getParameterOffsets`) and
`utils.go` (`escapeBytesBackslash`, `escapeStringBackslash`).

Go strings and `[]byte` values are byte sequences: `List UInt8`.
A `bytes.Buffer` is the list of bytes written so far; a write appends.
Go `int` values are `Int` (no index of this program comes near 2^63).
-/

namespace Prestgo

/-- A Go byte. -/
abbrev Byte := UInt8

/-- The bytes of an ASCII text, used to write concrete queries. -/
def ascii (s : String) : List Byte := s.toList.map (fun c => UInt8.ofNat c.toNat)

/-- The parameter marker `?`. -/
def marker : Byte := 0x3f

/-- The single quote. -/
def quote : Byte := 0x27

/-- The backslash. -/
def backslash : Byte := 0x5c

/-! ## utils.go -/

/-- One iteration of the `switch` of `escapeBytesBackslash` and of
`escapeStringBackslash`: what is written to `buf` for the byte `c`. -/
def escapeSwitch (buf : List Byte) (c : Byte) : List Byte :=
  if c = 0x00 then buf ++ [backslash, 0x30]
  else if c = 0x0a then buf ++ [backslash, 0x6e]
  else if c = 0x0d then buf ++ [backslash, 0x72]
  else if c = 0x1a then buf ++ [backslash, 0x5a]
  else if c = 0x27 then buf ++ [backslash, 0x27]
  else if c = 0x22 then buf ++ [backslash, 0x22]
  else if c = 0x5c then buf ++ [backslash, 0x5c]
  else buf ++ [c]

/-- `escapeBytesBackslash(buf, v)`: `for _, c := range v { switch c ... }`. -/
def escapeBytesBackslash (buf : List Byte) : List Byte → List Byte
  | [] => buf
  | c :: rest => escapeBytesBackslash (escapeSwitch buf c) rest

/-- The loop `for i := ...; i < len(v); i++ { switch v[i] ... }` of
`escapeStringBackslash`, with `todo` iterations left (`len(v) - i`). -/
def escapeStringLoop (v : List Byte) : Nat → Nat → List Byte → List Byte
  | 0, _, buf => buf
  | todo + 1, i, buf =>
    match v[i]? with
    | some c => escapeStringLoop v todo (i + 1) (escapeSwitch buf c)
    | none => buf

/-- `escapeStringBackslash(buf, v)`. -/
def escapeStringBackslash (buf : List Byte) (v : List Byte) : List Byte :=
  escapeStringLoop v v.length 0 buf

/-! ## stmt.go: getParameterOffsets -/

/-- Go's `strings.Index(s, "?")` for the one-byte substring `b`: the index of the
first `b` in `s`, or `-1`. -/
def stringsIndex : List Byte → Byte → Int
  | [], _ => -1
  | c :: rest, b =>
    if c = b then 0
    else
      let r := stringsIndex rest b
      if r = -1 then -1 else r + 1

/-- The loop of `getParameterOffsets`: `for i := 0; i < len(query); { ... }`.
Each iteration moves `i` forward by at least one; `fuel` bounds the number of
iterations and `none` means that it ran out. -/
def getParameterOffsetsLoop (query : List Byte) : Nat → Int → List Int → Option (List Int)
  | 0, i, offsets => if i < query.length then none else some offsets
  | fuel + 1, i, offsets =>
    if i < query.length then
      let pi := stringsIndex (query.drop i.toNat) marker
      if pi = -1 then some offsets
      else getParameterOffsetsLoop query fuel (i + (pi + 1)) (offsets ++ [pi + i])
    else some offsets

/-- `getParameterOffsets(query)`. -/
def getParameterOffsets (query : List Byte) : Option (List Int) :=
  getParameterOffsetsLoop query query.length 0 []

/-! ## Go's `time` package, as far as `queryInterpolate` uses it -/

/-- A `*time.Location`, reduced to its offset east of UTC in seconds. -/
structure Location where
  offset : Int
  deriving DecidableEq, Repr

/-- The location `time.UTC`. -/
def Location.UTC : Location := ⟨0⟩

/-- A `time.Time`: the instant as seconds since January 1, year 1, 00:00:00 UTC
and nanoseconds within that second, with the location the time is shown in. -/
structure Time where
  sec : Int
  nsec : Fin 1000000000
  loc : Location
  deriving DecidableEq, Repr

namespace Time

/-- `t.IsZero()`: the instant is January 1, year 1, 00:00:00 UTC. -/
def IsZero (t : Time) : Bool := t.sec = 0 ∧ t.nsec.val = 0

/-- `t.In(loc)`: the same instant, shown in `loc`. -/
def In (t : Time) (loc : Location) : Time := { t with loc := loc }

/-- `t.Add(d)` for a duration of `d` nanoseconds. -/
def Add (t : Time) (d : Int) : Time :=
  let dsec := Int.tdiv d 1000000000
  let nsec := (t.nsec.val : Int) + Int.tmod d 1000000000
  let dsec := if nsec ≥ 1000000000 then dsec + 1 else if nsec < 0 then dsec - 1 else dsec
  let nsec := if nsec ≥ 1000000000 then nsec - 1000000000
    else if nsec < 0 then nsec + 1000000000 else nsec
  { t with sec := t.sec + dsec,
           nsec := ⟨nsec.toNat % 1000000000, Nat.mod_lt _ (by decide)⟩ }

/-- The seconds since January 1, year 1, 00:00:00 in the time's location. -/
def abs (t : Time) : Int := t.sec + t.loc.offset

/-- `isLeap(year)`. -/
def isLeap (year : Int) : Bool := year % 4 = 0 ∧ (year % 100 ≠ 0 ∨ year % 400 = 0)

/-- The year and the zero-based day of the year of a day count since January 1,
year 1 (`absDate`: 400-, 100-, 4- and 1-year cycles). -/
def yearDay (days : Int) : Int × Int :=
  let n400 := days / 146097
  let y := 400 * n400
  let d := days - 146097 * n400
  let n := d / 36524
  let n := n - n / 4
  let y := y + 100 * n
  let d := d - 36524 * n
  let n := d / 1461
  let y := y + 4 * n
  let d := d - 1461 * n
  let n := d / 365
  let n := n - n / 4
  let y := y + n
  let d := d - 365 * n
  (y + 1, d)

/-- The table `daysBefore`: the days of a non-leap year before each month. -/
def daysBefore : List Int := [0, 31, 59, 90, 120, 151, 181, 212, 243, 273, 304, 334, 365]

/-- The month (1..12) and the day of the month of a year and a zero-based day of
that year (the second half of `absDate`). -/
def monthDay (year yday : Int) : Int × Int :=
  if isLeap year ∧ yday = 31 + 29 - 1 then (2, 29)
  else
    let day := if isLeap year ∧ yday > 31 + 29 - 1 then yday - 1 else yday
    let month := day / 31
    let e := daysBefore.getD (month + 1).toNat 365
    if day ≥ e then (month + 2, day - e + 1)
    else (month + 1, day - daysBefore.getD month.toNat 0 + 1)

/-- `t.Year()`. -/
def Year (t : Time) : Int := (yearDay (t.abs / 86400)).1

/-- `t.Month()`. -/
def Month (t : Time) : Int := (monthDay t.Year (yearDay (t.abs / 86400)).2).1

/-- `t.Day()`. -/
def Day (t : Time) : Int := (monthDay t.Year (yearDay (t.abs / 86400)).2).2

/-- `t.Hour()`. -/
def Hour (t : Time) : Int := t.abs % 86400 / 3600

/-- `t.Minute()`. -/
def Minute (t : Time) : Int := t.abs % 3600 / 60

/-- `t.Second()`. -/
def Second (t : Time) : Int := t.abs % 60

/-- `t.Nanosecond()`. -/
def Nanosecond (t : Time) : Int := t.nsec.val

/-- The days from January 1, year 1 to January 1 of `year`. -/
def daysSinceEpoch (year : Int) : Int :=
  let y := year - 1
  365 * y + y / 4 - y / 100 + y / 400

/-- `time.Date(year, month, day, hour, min, sec, nsec, time.UTC)` for fields in
their normal ranges. -/
def Date (year : Int) (month day hour min sec : Nat) (nsec : Fin 1000000000) : Time :=
  let d := daysSinceEpoch year + daysBefore.getD (month - 1) 0
    + (if isLeap year ∧ month ≥ 3 then 1 else 0) + ((day : Int) - 1)
  { sec := d * 86400 + hour * 3600 + min * 60 + sec, nsec := nsec, loc := Location.UTC }

end Time

/-! ## stmt.go: queryInterpolate -/

/-- A `driver.Value` (an `interface{}`) by its dynamic type: the seven types the
`switch` of `queryInterpolate` names, and values of any other type. A `[]byte` is
`none` when it is the nil slice. -/
inductive Value where
  | string (v : List Byte)
  | int64 (v : Int)
  | float64 (v : Float)
  | bool (v : Bool)
  | nil
  | bytes (v : Option (List Byte))
  | time (v : Time)
  | int (v : Int)
  | other (typeName : String)

/-- The supported set: the types with a `case` in the `switch`. -/
def Value.supported : Value → Bool
  | .int _ => false
  | .other _ => false
  | _ => true

/-- The error values `queryInterpolate` returns. -/
inductive DriverError where
  | ErrSkip
  deriving DecidableEq, Repr

/-- What a call does: it returns its pair `(string, error)`, or it aborts with a
run-time panic (an index or a slice out of range). -/
inductive Outcome where
  | returned (s : List Byte) (err : Option DriverError)
  | panicked
  deriving DecidableEq, Repr

/-- What one pass through the `switch` does to the buffer: the buffer after the
writes, the `default` branch (`return "", driver.ErrSkip`), or a panic. -/
inductive Written where
  | wrote (buf : List Byte)
  | skip
  | panicked
  deriving DecidableEq, Repr

/-- The type `stmt` (the field `conn`, which `queryInterpolate` does not read,
left out). -/
structure stmt where
  query : List Byte
  paramOffsets : List Int
  deriving DecidableEq, Repr

/-- Modelled from the spec: the table `digits10` is declared outside the given
sources; it has 100 entries and entry `n` is the tens digit character of `n`. -/
def digits10 : List Byte := (List.range 100).map (fun n => UInt8.ofNat (48 + n / 10))

/-- Modelled from the spec: the table `digits01` is declared outside the given
sources; it has 100 entries and entry `n` is the ones digit character of `n`. -/
def digits01 : List Byte := (List.range 100).map (fun n => UInt8.ofNat (48 + n % 10))

/-- The index expression `tbl[i]`: `none` is the out-of-range panic. -/
def index (tbl : List Byte) (i : Int) : Option Byte :=
  if 0 ≤ i then tbl[i.toNat]? else none

/-- The slice expression `s[lo:hi]`: `none` is the out-of-range panic. -/
def slice (s : List Byte) (lo hi : Int) : Option (List Byte) :=
  if 0 ≤ lo ∧ lo ≤ hi ∧ hi ≤ s.length then some ((s.take hi.toNat).drop lo.toNat) else none

/-- `strconv.FormatInt(v, 10)`. -/
def formatInt (v : Int) : List Byte :=
  let digits := (Nat.toDigits 10 v.natAbs).map (fun c => UInt8.ofNat c.toNat)
  if v < 0 then 0x2d :: digits else digits

/-- The first `[]byte{...}` literal of the `time.Time` case, for the time `v`
already moved to UTC and advanced; `none` is a panic of a table index. -/
def dateBytes (v : Time) : Option (List Byte) :=
  let year := v.Year
  let year100 := Int.tdiv year 100
  let year1 := Int.tmod year 100
  let month := v.Month
  let day := v.Day
  let hour := v.Hour
  let minute := v.Minute
  let second := v.Second
  [some quote,
    index digits10 year100, index digits01 year100,
    index digits10 year1, index digits01 year1,
    some 0x2d,
    index digits10 month, index digits01 month,
    some 0x2d,
    index digits10 day, index digits01 day,
    some 0x20,
    index digits10 hour, index digits01 hour,
    some 0x3a,
    index digits10 minute, index digits01 minute,
    some 0x3a,
    index digits10 second, index digits01 second].mapM id

/-- The second `[]byte{...}` literal of the `time.Time` case; `none` is a panic of
a table index. -/
def microBytes (micro : Int) : Option (List Byte) :=
  let micro10000 := Int.tdiv micro 10000
  let micro100 := Int.tmod (Int.tdiv micro 100) 100
  let micro1 := Int.tmod micro 100
  [some 0x2e,
    index digits10 micro10000, index digits01 micro10000,
    index digits10 micro100, index digits01 micro100,
    index digits10 micro1, index digits01 micro1].mapM id

/-- The `time.Time` case of the `switch`; `none` is a panic of a table index. -/
def writeTime (buf : List Byte) (v : Time) : Option (List Byte) :=
  if v.IsZero then some (buf ++ ascii "'0000-00-00'")
  else do
    let v := v.In Location.UTC
    let v := v.Add 500
    let micro := Int.tdiv v.Nanosecond 1000
    let buf := buf ++ (← dateBytes v)
    let buf ← if micro ≠ 0 then (microBytes micro).map (buf ++ ·) else some buf
    some (buf ++ [quote])

/-- The `switch v := arg.(type)` of `queryInterpolate`. `formatFloat` stands for
`strconv.FormatFloat(v, 'g', -1, 64)`. -/
def writeArg (formatFloat : Float → List Byte) (buf : List Byte) : Value → Written
  | .string v => .wrote (escapeStringBackslash (buf ++ [quote]) v ++ [quote])
  | .int64 v => .wrote (buf ++ formatInt v)
  | .float64 v => .wrote (buf ++ formatFloat v)
  | .bool v => if v then .wrote (buf ++ [0x31]) else .wrote (buf ++ [0x30])
  | .nil => .wrote (buf ++ ascii "NULL")
  | .bytes none => .wrote (buf ++ ascii "NULL")
  | .bytes (some v) => .wrote (escapeBytesBackslash (buf ++ ascii "_binary'") v ++ [quote])
  | .time v =>
    match writeTime buf v with
    | some buf => .wrote buf
    | none => .panicked
  | _ => .skip

/-- The loop `for n, arg := range args` of `queryInterpolate` and what follows
it, from the state `n`, `i`, `result` with the arguments still to visit. -/
def queryInterpolateLoop (formatFloat : Float → List Byte) (s : stmt) :
    List Value → Nat → Int → List Byte → Outcome
  | [], _, i, result =>
    if i < s.query.length then
      match slice s.query i s.query.length with
      | some rest => .returned (result ++ rest) none
      | none => .panicked
    else .returned result none
  | arg :: args, n, i, result =>
    match s.paramOffsets[n]? with
    | none => .panicked
    | some off =>
      match slice s.query i off with
      | none => .panicked
      | some piece =>
        match writeArg formatFloat (result ++ piece) arg with
        | .wrote result => queryInterpolateLoop formatFloat s args (n + 1) (off + 1) result
        | .skip => .returned [] (some .ErrSkip)
        | .panicked => .panicked

/-- `s.queryInterpolate(args)`. -/
def queryInterpolate (formatFloat : Float → List Byte) (s : stmt) (args : List Value) :
    Outcome :=
  if args.length ≠ s.paramOffsets.length then .returned [] (some .ErrSkip)
  else if s.paramOffsets.length < 1 then .returned s.query none
  else queryInterpolateLoop formatFloat s args 0 0 []

/-! ## Specification-side definitions -/

/-- The escaping table of the specification: each special byte with the byte
that follows the backslash in its image. -/
def escapeTable : List (Byte × Byte) :=
  [(0x00, 0x30), (0x0a, 0x6e), (0x0d, 0x72), (0x1a, 0x5a), (0x27, 0x27), (0x22, 0x22),
    (0x5c, 0x5c)]

/-- The image of one byte under the escaping table: backslash and the listed byte
for the seven special bytes, the byte itself for every other byte. -/
def escapeImage (c : Byte) : List Byte :=
  match escapeTable.lookup c with
  | some e => [0x5c, e]
  | none => [c]

/-- The concatenation, in order, of the images of the bytes of `v`. -/
def escapeSpec : List Byte → List Byte
  | [] => []
  | c :: rest => escapeImage c ++ escapeSpec rest

/-- The indices of the marker bytes of `l`, counted from `base`, left to right. -/
def markerOffsets (base : Int) : List Byte → List Int
  | [] => []
  | c :: rest =>
    if c = marker then base :: markerOffsets (base + 1) rest
    else markerOffsets (base + 1) rest

/-- The pieces of `q` between its marker bytes: `k + 1` pieces for `k` markers. -/
def splitAtMarkers : List Byte → List (List Byte)
  | [] => [[]]
  | c :: rest =>
    if c = marker then [] :: splitAtMarkers rest
    else
      match splitAtMarkers rest with
      | p :: ps => (c :: p) :: ps
      | [] => [[c]]

/-- The text `s0 ++ L1 ++ s1 ++ ... ++ Lk ++ sk` for the pieces `s0, ..., sk` and the
literals `L1, ..., Lk`. -/
def assemble : List (List Byte) → List (List Byte) → List Byte
  | [], _ => []
  | p :: _, [] => p
  | p :: ps, l :: ls => p ++ l ++ assemble ps ls

/-- The literal encoding of one argument: what the `switch` writes for it into an
empty buffer, when it writes. -/
def literal (formatFloat : Float → List Byte) (arg : Value) : Option (List Byte) :=
  match writeArg formatFloat [] arg with
  | .wrote l => some l
  | _ => none

/-- The seven special bytes of the escaping table. -/
def specialBytes : List Byte := [0x00, 0x0a, 0x0d, 0x1a, 0x27, 0x22, 0x5c]

/-- The byte that the escaper writes as a backslash and `e`. -/
def unescapeByte (e : Byte) : Byte :=
  if e = 0x30 then 0x00
  else if e = 0x6e then 0x0a
  else if e = 0x72 then 0x0d
  else if e = 0x5a then 0x1a
  else e

/-- Reading an escaped text back: a backslash and the byte after it stand for one
byte, every other byte for itself. -/
def unescapeSpec : List Byte → List Byte
  | [] => []
  | c :: t =>
    if c = backslash then
      match t with
      | [] => [c]
      | e :: rest => unescapeByte e :: unescapeSpec rest
    else c :: unescapeSpec t

/-- The length of the run of backslashes that `l` ends in. -/
def trailingBackslashes (l : List Byte) : Nat :=
  (l.reverse.takeWhile (fun c => decide (c = backslash))).length

/-- Every single-quote byte and every double-quote byte of `l` comes right after
a run of backslashes of odd length. -/
def QuotesEscaped (l : List Byte) : Prop :=
  ∀ (pre : List Byte) (c : Byte) (post : List Byte),
    l = pre ++ c :: post → (c = 0x27 ∨ c = 0x22) → trailingBackslashes pre % 2 = 1

/-- The decimal digits of `n`, zero-padded to `width` characters. -/
def decimalDigits (width : Nat) (n : Nat) : List Byte :=
  (List.range width).reverse.map (fun k => UInt8.ofNat (48 + n / 10 ^ k % 10))

/-- The text `'YYYY-MM-DD HH:MM:SS'` of the fields of `u`, every field zero-padded
to its width, with `.` and the six digits of the microseconds before the closing
quote when they are not zero. -/
def timeText (u : Time) : List Byte :=
  [quote] ++ decimalDigits 4 u.Year.toNat ++ [0x2d] ++ decimalDigits 2 u.Month.toNat ++
    [0x2d] ++ decimalDigits 2 u.Day.toNat ++ [0x20] ++ decimalDigits 2 u.Hour.toNat ++
    [0x3a] ++ decimalDigits 2 u.Minute.toNat ++ [0x3a] ++ decimalDigits 2 u.Second.toNat ++
    (if u.Nanosecond.toNat / 1000 = 0 then []
      else 0x2e :: decimalDigits 6 (u.Nanosecond.toNat / 1000)) ++ [quote]

/-- The value of the cursor `i` of `queryInterpolate` when iteration `n` starts:
`0` at first, and `s.paramOffsets[n-1] + 1` after iteration `n - 1`. -/
def cursor (paramOffsets : List Int) : Nat → Int
  | 0 => 0
  | n + 1 => paramOffsets.getD n 0 + 1

/-- The argument is a `time.Time`. -/
def Value.isTime : Value → Bool
  | .time _ => true
  | _ => false

/-! ## The escaper -/

theorem escapeImage_other (c : Byte) (h0 : c ≠ 0x00) (h1 : c ≠ 0x0a) (h2 : c ≠ 0x0d)
    (h3 : c ≠ 0x1a) (h4 : c ≠ 0x27) (h5 : c ≠ 0x22) (h6 : c ≠ 0x5c) : escapeImage c = [c] := by
  have hl : escapeTable.lookup c = none := by
    simp [escapeTable, List.lookup, beq_eq_false_iff_ne.mpr h0, beq_eq_false_iff_ne.mpr h1,
      beq_eq_false_iff_ne.mpr h2, beq_eq_false_iff_ne.mpr h3, beq_eq_false_iff_ne.mpr h4,
      beq_eq_false_iff_ne.mpr h5, beq_eq_false_iff_ne.mpr h6]
  simp [escapeImage, hl]

theorem escapeSwitch_eq (buf : List Byte) (c : Byte) :
    escapeSwitch buf c = buf ++ escapeImage c := by
  unfold escapeSwitch
  split_ifs with h0 h1 h2 h3 h4 h5 h6
  · subst h0; rfl
  · subst h1; rfl
  · subst h2; rfl
  · subst h3; rfl
  · subst h4; rfl
  · subst h5; rfl
  · subst h6; rfl
  · rw [escapeImage_other c h0 h1 h2 h3 h4 h5 h6]

theorem escapeBytesBackslash_eq (v : List Byte) :
    ∀ buf : List Byte, escapeBytesBackslash buf v = buf ++ escapeSpec v := by
  induction v with
  | nil => intro buf; simp [escapeBytesBackslash, escapeSpec]
  | cons c rest ih =>
    intro buf
    simp [escapeBytesBackslash, escapeSpec, ih, escapeSwitch_eq]

theorem escapeStringLoop_eq (v : List Byte) :
    ∀ (todo i : Nat) (buf : List Byte), i + todo = v.length →
      escapeStringLoop v todo i buf = buf ++ escapeSpec (v.drop i) := by
  intro todo
  induction todo with
  | zero =>
    intro i buf h
    have hi : v.length ≤ i := by omega
    simp [escapeStringLoop, List.drop_eq_nil_of_le hi, escapeSpec]
  | succ todo ih =>
    intro i buf h
    have hi : i < v.length := by omega
    have hd : v.drop i = v[i] :: v.drop (i + 1) := List.drop_eq_getElem_cons hi
    rw [escapeStringLoop, List.getElem?_eq_getElem hi]
    simp only []
    rw [ih (i + 1) _ (by omega), hd, escapeSpec, escapeSwitch_eq, List.append_assoc]

theorem escapeStringBackslash_eq (buf v : List Byte) :
    escapeStringBackslash buf v = buf ++ escapeSpec v := by
  unfold escapeStringBackslash
  rw [escapeStringLoop_eq v v.length 0 buf (by omega)]
  simp

/-- C8: for every byte sequence `v`, `escapeBytesBackslash` leaves what the buffer
held unchanged and appends, in order, the images of the bytes of `v`, where the
image of 0x00 is a backslash and `0`, of 0x0A a backslash and `n`, of 0x0D a
backslash and `r`, of 0x1A a backslash and `Z`, of the single quote, the double
quote and the backslash a backslash and the byte, and of every other byte the byte
itself. -/
theorem escapeBytesBackslash_appends_images (buf v : List Byte) :
    escapeBytesBackslash buf v = buf ++ escapeSpec v ∧
      escapeImage 0x00 = [0x5c, 0x30] ∧ escapeImage 0x0a = [0x5c, 0x6e] ∧
      escapeImage 0x0d = [0x5c, 0x72] ∧ escapeImage 0x1a = [0x5c, 0x5a] ∧
      escapeImage 0x27 = [0x5c, 0x27] ∧ escapeImage 0x22 = [0x5c, 0x22] ∧
      escapeImage 0x5c = [0x5c, 0x5c] ∧
      ∀ c : Byte, c ∉ [0x00, 0x0a, 0x0d, 0x1a, 0x27, 0x22, 0x5c] → escapeImage c = [c] := by
  refine ⟨escapeBytesBackslash_eq v buf, by decide, by decide, by decide, by decide,
    by decide, by decide, by decide, ?_⟩
  intro c hc
  simp only [List.mem_cons, List.mem_singleton, List.not_mem_nil, or_false, not_or] at hc
  exact escapeImage_other c hc.1 hc.2.1 hc.2.2.1 hc.2.2.2.1 hc.2.2.2.2.1 hc.2.2.2.2.2.1
    hc.2.2.2.2.2.2

/-- C9: the text escaper and the binary escaper apply the same rules: for every
string `s`, `escapeStringBackslash(buf, s)` writes exactly the bytes that
`escapeBytesBackslash(buf, []byte(s))` writes, and a byte of a multi-byte encoded
character (0x80 and above) is written as it is. -/
theorem escapeStringBackslash_eq_escapeBytesBackslash (buf s : List Byte) :
    escapeStringBackslash buf s = escapeBytesBackslash buf s ∧
      ∀ c : Byte, 0x80 ≤ c → escapeStringBackslash buf [c] = buf ++ [c] := by
  refine ⟨by rw [escapeStringBackslash_eq, escapeBytesBackslash_eq], ?_⟩
  intro c hc
  have h0 : c ≠ 0x00 := by rintro rfl; exact absurd hc (by decide)
  have h1 : c ≠ 0x0a := by rintro rfl; exact absurd hc (by decide)
  have h2 : c ≠ 0x0d := by rintro rfl; exact absurd hc (by decide)
  have h3 : c ≠ 0x1a := by rintro rfl; exact absurd hc (by decide)
  have h4 : c ≠ 0x27 := by rintro rfl; exact absurd hc (by decide)
  have h5 : c ≠ 0x22 := by rintro rfl; exact absurd hc (by decide)
  have h6 : c ≠ 0x5c := by rintro rfl; exact absurd hc (by decide)
  rw [escapeStringBackslash_eq, escapeSpec, escapeSpec, escapeImage_other c h0 h1 h2 h3 h4 h5 h6]
  rfl

/-! ## The placeholder scanner -/

theorem stringsIndex_ge (l : List Byte) (b : Byte) : -1 ≤ stringsIndex l b := by
  induction l with
  | nil => simp [stringsIndex]
  | cons c rest ih =>
    simp only [stringsIndex]
    split_ifs <;> omega

theorem markerOffsets_of_not_found (l : List Byte) :
    ∀ base : Int, stringsIndex l marker = -1 → markerOffsets base l = [] := by
  induction l with
  | nil => intro base _; rfl
  | cons c rest ih =>
    intro base h
    simp only [stringsIndex] at h
    have hge := stringsIndex_ge rest marker
    split_ifs at h with hc hr
    · simp [markerOffsets, hc, ih (base + 1) hr]
    · omega

theorem markerOffsets_of_found (l : List Byte) :
    ∀ base : Int, stringsIndex l marker ≠ -1 →
      0 ≤ stringsIndex l marker ∧ stringsIndex l marker < l.length ∧
      markerOffsets base l =
        (stringsIndex l marker + base) ::
          markerOffsets (base + (stringsIndex l marker + 1))
            (l.drop ((stringsIndex l marker).toNat + 1)) := by
  induction l with
  | nil => intro base h; simp [stringsIndex] at h
  | cons c rest ih =>
    intro base h
    simp only [stringsIndex] at h ⊢
    split_ifs at h ⊢ with hc hr
    · simp [markerOffsets, hc]
    · exact absurd rfl h
    · obtain ⟨h0, h1, h2⟩ := ih (base + 1) hr
      have ht : (stringsIndex rest marker + 1).toNat = (stringsIndex rest marker).toNat + 1 := by
        omega
      refine ⟨by omega, by simp only [List.length_cons]; push_cast; omega, ?_⟩
      rw [markerOffsets, if_neg hc, h2, ht, List.drop_succ_cons]
      congr 1
      · omega
      · congr 1
        omega

theorem getParameterOffsetsLoop_eq (query : List Byte) :
    ∀ (fuel i : Nat) (offsets : List Int), query.length - i ≤ fuel →
      getParameterOffsetsLoop query fuel (i : Int) offsets =
        some (offsets ++ markerOffsets i (query.drop i)) := by
  intro fuel
  induction fuel with
  | zero =>
    intro i offsets h
    have hi : query.length ≤ i := by omega
    have hn : ¬ ((i : Int) < (query.length : Int)) := by omega
    simp [getParameterOffsetsLoop, hn, List.drop_eq_nil_of_le hi, markerOffsets]
  | succ fuel ih =>
    intro i offsets h
    rw [getParameterOffsetsLoop]
    by_cases hlt : (i : Int) < (query.length : Int)
    · rw [if_pos hlt]
      simp only [Int.toNat_ofNat]
      by_cases hp : stringsIndex (query.drop i) marker = -1
      · rw [if_pos hp, markerOffsets_of_not_found _ _ hp]
        simp
      · rw [if_neg hp]
        obtain ⟨h0, h1, h2⟩ := markerOffsets_of_found (query.drop i) i hp
        have hcast : (i : Int) + (stringsIndex (query.drop i) marker + 1) =
            ((i + ((stringsIndex (query.drop i) marker).toNat + 1) : Nat) : Int) := by
          push_cast
          omega
        rw [h2, hcast, ih _ _ (by omega), List.drop_drop]
        simp only [List.append_assoc, List.singleton_append]
    · have hi : query.length ≤ i := by omega
      rw [if_neg hlt, List.drop_eq_nil_of_le hi]
      simp [markerOffsets]

theorem getParameterOffsets_eq (query : List Byte) :
    getParameterOffsets query = some (markerOffsets 0 query) := by
  have h := getParameterOffsetsLoop_eq query query.length 0 [] (by omega)
  simpa [getParameterOffsets] using h

theorem markerOffsets_mem (l : List Byte) :
    ∀ (base o : Int), o ∈ markerOffsets base l →
      base ≤ o ∧ o < base + l.length ∧ l[(o - base).toNat]? = some marker := by
  induction l with
  | nil => intro base o h; simp [markerOffsets] at h
  | cons c rest ih =>
    intro base o h
    have hrest : o ∈ markerOffsets (base + 1) rest →
        base ≤ o ∧ o < base + ((c :: rest).length : Int) ∧
          (c :: rest)[(o - base).toNat]? = some marker := by
      intro hm
      obtain ⟨h0, h1, h2⟩ := ih (base + 1) o hm
      have ht : (o - base).toNat = (o - (base + 1)).toNat + 1 := by omega
      refine ⟨by omega, by simp only [List.length_cons]; push_cast; omega, ?_⟩
      rw [ht, List.getElem?_cons_succ]
      exact h2
    rw [markerOffsets] at h
    split_ifs at h with hc
    · rcases List.mem_cons.mp h with h | h
      · subst h
        refine ⟨le_refl _, by simp only [List.length_cons]; push_cast; omega, ?_⟩
        simp [hc]
      · exact hrest h
    · exact hrest h

theorem markerOffsets_pairwise (l : List Byte) :
    ∀ base : Int, (markerOffsets base l).Pairwise (· < ·) := by
  induction l with
  | nil => intro base; simp [markerOffsets]
  | cons c rest ih =>
    intro base
    rw [markerOffsets]
    split_ifs with hc
    · refine List.pairwise_cons.mpr ⟨?_, ih (base + 1)⟩
      intro o ho
      have := (markerOffsets_mem rest (base + 1) o ho).1
      omega
    · exact ih (base + 1)

theorem markerOffsets_complete (l : List Byte) :
    ∀ (base : Int) (i : Nat), l[i]? = some marker → base + i ∈ markerOffsets base l := by
  induction l with
  | nil => intro base i h; simp at h
  | cons c rest ih =>
    intro base i h
    cases i with
    | zero =>
      have hc : c = marker := by simpa using h
      simp [markerOffsets, hc]
    | succ i =>
      rw [List.getElem?_cons_succ] at h
      have hm := ih (base + 1) i h
      have he : base + ((i + 1 : Nat) : Int) = base + 1 + (i : Int) := by push_cast; omega
      rw [he, markerOffsets]
      split_ifs
      · exact List.mem_cons_of_mem _ hm
      · exact hm

theorem markerOffsets_length (l : List Byte) :
    ∀ base : Int, (markerOffsets base l).length = l.count marker := by
  induction l with
  | nil => intro base; rfl
  | cons c rest ih =>
    intro base
    rw [markerOffsets]
    split_ifs with hc
    · subst hc
      simp [ih]
    · have hne : (c == marker) = false := beq_eq_false_iff_ne.mpr hc
      simp [ih, List.count_cons, hne]

/-- C6: the offsets `getParameterOffsets` returns are strictly increasing, and each
offset `o` satisfies `0 ≤ o < len(q)` and `q[o] = '?'`. -/
theorem getParameterOffsets_increasing_at_markers (q : List Byte) :
    ∃ offs, getParameterOffsets q = some offs ∧ offs.Pairwise (· < ·) ∧
      ∀ o ∈ offs, 0 ≤ o ∧ o < q.length ∧ q[o.toNat]? = some marker := by
  refine ⟨markerOffsets 0 q, getParameterOffsets_eq q, markerOffsets_pairwise q 0, ?_⟩
  intro o ho
  obtain ⟨h0, h1, h2⟩ := markerOffsets_mem q 0 o ho
  refine ⟨h0, by omega, ?_⟩
  simpa using h2

/-- C7: `getParameterOffsets` returns every index `i` with `q[i] = '?'`, whatever
surrounds it (the scan looks at no quote and no comment); the number of offsets is
the number of `?` bytes of `q`, and there is none exactly when `q` has no `?`. -/
theorem getParameterOffsets_complete (q : List Byte) :
    ∃ offs, getParameterOffsets q = some offs ∧
      (∀ i : Nat, q[i]? = some marker → (i : Int) ∈ offs) ∧
      offs.length = q.count marker ∧ (offs = [] ↔ marker ∉ q) := by
  refine ⟨markerOffsets 0 q, getParameterOffsets_eq q, ?_, markerOffsets_length q 0, ?_⟩
  · intro i hi
    simpa using markerOffsets_complete q 0 i hi
  · rw [← List.length_eq_zero, markerOffsets_length, List.count_eq_zero]

/-! ## The literal encoder and the buffer -/

theorem writeTime_append (buf : List Byte) (v : Time) :
    writeTime buf v = (writeTime [] v).map (buf ++ ·) := by
  unfold writeTime
  split
  · simp
  · simp only [Option.bind_eq_bind, List.nil_append]
    cases dateBytes ((v.In Location.UTC).Add 500) with
    | none => simp
    | some date =>
      simp only [Option.some_bind]
      split
      · cases microBytes (Int.tdiv ((v.In Location.UTC).Add 500).Nanosecond 1000) with
        | none => simp
        | some frac => simp
      · simp

theorem writeArg_append (ff : Float → List Byte) (buf : List Byte) (arg : Value) :
    writeArg ff buf arg =
      match writeArg ff [] arg with
      | .wrote l => .wrote (buf ++ l)
      | .skip => .skip
      | .panicked => .panicked := by
  cases arg with
  | string v => simp [writeArg, escapeStringBackslash_eq]
  | int64 v => simp [writeArg]
  | float64 v => simp [writeArg]
  | bool v => cases v <;> simp [writeArg]
  | nil => simp [writeArg]
  | bytes v => cases v <;> simp [writeArg, escapeBytesBackslash_eq]
  | time v =>
    simp only [writeArg]
    rw [writeTime_append buf v]
    cases writeTime [] v <;> simp
  | int v => simp [writeArg]
  | other t => simp [writeArg]

theorem writeArg_of_literal (ff : Float → List Byte) (buf : List Byte) (arg : Value)
    (l : List Byte) (h : literal ff arg = some l) : writeArg ff buf arg = .wrote (buf ++ l) := by
  rw [writeArg_append]
  unfold literal at h
  split at h <;> simp_all

/-! ## The interpolator -/

theorem markerOffsets_of_not_mem (l : List Byte) :
    ∀ base : Int, marker ∉ l → markerOffsets base l = [] := by
  intro base h
  rw [← List.length_eq_zero, markerOffsets_length, List.count_eq_zero]
  exact h

theorem markerOffsets_append_marker (a b : List Byte) :
    ∀ base : Int, marker ∉ a →
      markerOffsets base (a ++ marker :: b) =
        (base + a.length) :: markerOffsets (base + a.length + 1) b := by
  induction a with
  | nil => intro base _; simp [markerOffsets]
  | cons c rest ih =>
    intro base h
    have hc : c ≠ marker := fun e => h (by simp [e])
    have hr : marker ∉ rest := fun e => h (List.mem_cons_of_mem _ e)
    rw [List.cons_append, markerOffsets, if_neg hc, ih (base + 1) hr]
    simp only [List.length_cons]
    push_cast
    congr 1
    · omega
    · congr 1
      omega

theorem splitAtMarkers_of_not_mem (l : List Byte) : marker ∉ l → splitAtMarkers l = [l] := by
  induction l with
  | nil => intro _; rfl
  | cons c rest ih =>
    intro h
    have hc : c ≠ marker := fun e => h (by simp [e])
    have hr : marker ∉ rest := fun e => h (List.mem_cons_of_mem _ e)
    simp [splitAtMarkers, hc, ih hr]

theorem splitAtMarkers_append_marker (a b : List Byte) :
    marker ∉ a → splitAtMarkers (a ++ marker :: b) = a :: splitAtMarkers b := by
  induction a with
  | nil => intro _; simp [splitAtMarkers]
  | cons c rest ih =>
    intro h
    have hc : c ≠ marker := fun e => h (by simp [e])
    have hr : marker ∉ rest := fun e => h (List.mem_cons_of_mem _ e)
    simp [splitAtMarkers, hc, ih hr]

theorem slice_of_drop (q a b : List Byte) (i : Nat) (hi : i ≤ q.length)
    (h : q.drop i = a ++ b) : slice q i ((i : Int) + a.length) = some a := by
  have hlen : (q.drop i).length = a.length + b.length := by rw [h, List.length_append]
  rw [List.length_drop] at hlen
  have hb : ((i : Int) + a.length).toNat = i + a.length := by omega
  have hc : 0 ≤ (i : Int) ∧ (i : Int) ≤ (i : Int) + a.length ∧
      (i : Int) + a.length ≤ q.length := by omega
  rw [slice, if_pos hc, hb, Int.toNat_ofNat, List.drop_take, h]
  simp

/-- One iteration of the loop of `queryInterpolate` from a state that a scan of the
rest of the query matches: the text up to the next marker is copied, the argument
is written, and the state after it matches the scan again. -/
theorem queryInterpolateLoop_step (ff : Float → List Byte) (s : stmt) (n i : Nat)
    (rest : List Byte) (hq : s.query.drop i = rest)
    (ho : s.paramOffsets.drop n = markerOffsets i rest) (hm : marker ∈ rest) :
    ∃ a b, rest = a ++ marker :: b ∧ marker ∉ a ∧
      s.query.drop (i + a.length + 1) = b ∧
      s.paramOffsets.drop (n + 1) = markerOffsets ((i + a.length + 1 : Nat) : Int) b ∧
      ∀ (arg : Value) (args : List Value) (result : List Byte),
        queryInterpolateLoop ff s (arg :: args) n i result =
          match writeArg ff (result ++ a) arg with
          | .wrote r => queryInterpolateLoop ff s args (n + 1) ((i + a.length + 1 : Nat) : Int) r
          | .skip => .returned [] (some .ErrSkip)
          | .panicked => .panicked := by
  obtain ⟨a, b, hab, ha⟩ := List.eq_append_cons_of_mem hm
  subst hab
  rw [markerOffsets_append_marker a b i ha] at ho
  have hoff : s.paramOffsets[n]? = some ((i : Int) + a.length) := by
    rw [← Nat.add_zero n, ← List.getElem?_drop, ho]
    simp
  have hnext : s.paramOffsets.drop (n + 1) =
      markerOffsets (((i + a.length + 1 : Nat)) : Int) b := by
    rw [← List.drop_drop, ho]
    simp only [List.drop_succ_cons, List.drop_zero]
    push_cast
    rfl
  have hqnext : s.query.drop (i + a.length + 1) = b := by
    have h1 : s.query.drop (i + (a.length + 1)) = b := by
      rw [← List.drop_drop, hq]
      have h2 := @List.drop_left' _ (a ++ [marker]) b (a.length + 1) (by simp)
      rw [List.append_assoc] at h2
      exact h2
    simpa [Nat.add_assoc] using h1
  have hilt : i ≤ s.query.length := by
    by_contra hgt
    rw [List.drop_eq_nil_of_le (by omega)] at hq
    simp at hq
  have hi : ((i : Int) + a.length + 1) = ((i + a.length + 1 : Nat) : Int) := by
    push_cast
    rfl
  refine ⟨a, b, rfl, ha, hqnext, hnext, ?_⟩
  intro arg args result
  rw [queryInterpolateLoop, hoff]
  simp only []
  rw [slice_of_drop s.query a (marker :: b) i hilt hq]
  simp only []
  rw [hi]

/-- The loop of `queryInterpolate` from a state that a scan of the rest of the
query matches, when every argument left has a literal: the rest of the query is
copied with each marker replaced by the literal of its argument. -/
theorem queryInterpolateLoop_eq (ff : Float → List Byte) (s : stmt) (args : List Value) :
    ∀ (lits : List (List Byte)) (n i : Nat) (result rest : List Byte),
      List.Forall₂ (fun a l => literal ff a = some l) args lits →
      s.query.drop i = rest → s.paramOffsets.drop n = markerOffsets i rest →
      args.length = rest.count marker →
      queryInterpolateLoop ff s args n i result =
        .returned (result ++ assemble (splitAtMarkers rest) lits) none := by
  induction args with
  | nil =>
    intro lits n i result rest hl hq ho hc
    cases hl
    have hm : marker ∉ rest := by
      rw [← List.count_eq_zero]
      simpa using hc.symm
    rw [queryInterpolateLoop, splitAtMarkers_of_not_mem rest hm]
    by_cases hi : (i : Int) < (s.query.length : Int)
    · have hs := slice_of_drop s.query rest [] i (by omega) (by simpa using hq)
      have hlen : (s.query.drop i).length = rest.length := by rw [hq]
      rw [List.length_drop] at hlen
      have he : (s.query.length : Int) = (i : Int) + rest.length := by omega
      rw [if_pos hi, he, hs]
      rfl
    · have hle : s.query.length ≤ i := by omega
      rw [List.drop_eq_nil_of_le hle] at hq
      subst hq
      rw [if_neg hi]
      simp [assemble]
  | cons arg args ih =>
    intro lits n i result rest hl hq ho hc
    cases hl with
    | cons hlit hl =>
      rename_i l ls
      have hm : marker ∈ rest := by
        rw [← List.count_pos_iff]
        simp only [List.length_cons] at hc
        omega
      obtain ⟨a, b, hab, ha, hqnext, hnext, hstep⟩ := queryInterpolateLoop_step ff s n i rest hq ho hm
      subst hab
      have hcnext : args.length = b.count marker := by
        have hca : a.count marker = 0 := List.count_eq_zero.mpr ha
        simp only [List.length_cons, List.count_append, List.count_cons_self, hca] at hc
        omega
      rw [hstep, writeArg_of_literal ff _ arg l hlit]
      simp only []
      rw [ih ls (n + 1) (i + a.length + 1) _ b hl hqnext hnext hcnext,
        splitAtMarkers_append_marker a b ha]
      simp [assemble]

/-- The loop of `queryInterpolate` from a state that a scan of the rest of the
query matches, when an argument outside the supported set follows arguments that
all have a literal: the `default` branch returns the empty string and `ErrSkip`. -/
theorem queryInterpolateLoop_skip (ff : Float → List Byte) (s : stmt) (u : Value)
    (post : List Value) (hu : u.supported = false) (pre : List Value) :
    ∀ (n i : Nat) (result rest : List Byte),
      (∀ a ∈ pre, (literal ff a).isSome) →
      s.query.drop i = rest → s.paramOffsets.drop n = markerOffsets i rest →
      (pre ++ u :: post).length = rest.count marker →
      queryInterpolateLoop ff s (pre ++ u :: post) n i result =
        .returned [] (some .ErrSkip) := by
  induction pre with
  | nil =>
    intro n i result rest _ hq ho hc
    have hm : marker ∈ rest := by
      rw [← List.count_pos_iff]
      simp only [List.nil_append, List.length_cons] at hc
      omega
    obtain ⟨a, b, _, _, _, _, hstep⟩ := queryInterpolateLoop_step ff s n i rest hq ho hm
    rw [List.nil_append, hstep]
    cases u <;> simp_all [Value.supported, writeArg]
  | cons arg pre ih =>
    intro n i result rest hl hq ho hc
    have hm : marker ∈ rest := by
      rw [← List.count_pos_iff]
      simp only [List.cons_append, List.length_cons] at hc
      omega
    obtain ⟨a, b, hab, ha, hqnext, hnext, hstep⟩ := queryInterpolateLoop_step ff s n i rest hq ho hm
    subst hab
    have hcnext : (pre ++ u :: post).length = b.count marker := by
      have hca : a.count marker = 0 := List.count_eq_zero.mpr ha
      simp only [List.cons_append, List.length_cons, List.count_append, List.count_cons_self,
        hca] at hc
      omega
    obtain ⟨l, hlit⟩ := Option.isSome_iff_exists.mp (hl arg (List.mem_cons_self _ _))
    rw [List.cons_append, hstep, writeArg_of_literal ff _ arg l hlit]
    simp only []
    exact ih (n + 1) (i + a.length + 1) _ b (fun x hx => hl x (List.mem_cons_of_mem _ hx))
      hqnext hnext hcnext

/-- With the offsets of a scan of the query, as many arguments as markers and a
literal for every argument, `queryInterpolate` returns the pieces of the query
with the literals in between, and no error. -/
theorem queryInterpolate_eq_assemble (ff : Float → List Byte) (q : List Byte)
    (args : List Value) (lits : List (List Byte))
    (hl : List.Forall₂ (fun a l => literal ff a = some l) args lits)
    (hc : args.length = q.count marker) :
    queryInterpolate ff ⟨q, markerOffsets 0 q⟩ args =
      .returned (assemble (splitAtMarkers q) lits) none := by
  unfold queryInterpolate
  simp only [markerOffsets_length, hc, ne_eq, not_true_eq_false, if_false]
  by_cases h0 : q.count marker < 1
  · have hz : q.count marker = 0 := by omega
    have hm : marker ∉ q := List.count_eq_zero.mp hz
    have ha : args = [] := List.length_eq_zero.mp (by omega)
    subst ha
    cases hl
    rw [if_pos h0, splitAtMarkers_of_not_mem q hm]
    rfl
  · rw [if_neg h0]
    have h := queryInterpolateLoop_eq ff ⟨q, markerOffsets 0 q⟩ args lits 0 0 [] q hl rfl rfl hc
    simpa using h

/-- With the offsets of a scan of the query, an argument outside the supported set
that follows arguments that all have a literal makes `queryInterpolate` return the
empty string and `ErrSkip`, whatever the number of arguments. -/
theorem queryInterpolate_skip (ff : Float → List Byte) (q : List Byte)
    (pre post : List Value) (u : Value) (hl : ∀ a ∈ pre, (literal ff a).isSome)
    (hu : u.supported = false) :
    queryInterpolate ff ⟨q, markerOffsets 0 q⟩ (pre ++ u :: post) =
      .returned [] (some .ErrSkip) := by
  unfold queryInterpolate
  by_cases hc : (pre ++ u :: post).length ≠ (markerOffsets 0 q).length
  · rw [if_pos hc]
  · have hc2 : (pre ++ u :: post).length = q.count marker := by
      rw [← markerOffsets_length q 0]
      exact not_not.mp hc
    have h1 : ¬ (markerOffsets 0 q).length < 1 := by
      rw [markerOffsets_length, ← hc2]
      simp
    rw [if_neg hc, if_neg h1]
    exact queryInterpolateLoop_skip ff ⟨q, markerOffsets 0 q⟩ u post hu pre 0 0 [] q hl rfl rfl hc2

theorem forall₂_literal_filterMap (ff : Float → List Byte) (args : List Value)
    (hl : ∀ a ∈ args, (literal ff a).isSome) :
    List.Forall₂ (fun a l => literal ff a = some l) args (args.filterMap (literal ff)) := by
  induction args with
  | nil => exact List.Forall₂.nil
  | cons arg args ih =>
    obtain ⟨l, hlit⟩ := Option.isSome_iff_exists.mp (hl arg (List.mem_cons_self _ _))
    rw [List.filterMap_cons_some hlit]
    exact List.Forall₂.cons hlit (ih (fun x hx => hl x (List.mem_cons_of_mem _ hx)))

/-- For a query text with as many `?` bytes as there are arguments, when the
`switch` writes a literal for every argument, `queryInterpolate` with the offsets
of `getParameterOffsets` returns the pieces of the query text with the literals of
the arguments in between, in order, and no error. -/
theorem queryInterpolate_substitutes (ff : Float → List Byte) (q : List Byte)
    (args : List Value) (hc : args.length = q.count marker)
    (hl : ∀ a ∈ args, (literal ff a).isSome) :
    ∃ offs, getParameterOffsets q = some offs ∧
      queryInterpolate ff ⟨q, offs⟩ args =
        .returned (assemble (splitAtMarkers q) (args.filterMap (literal ff))) none :=
  ⟨markerOffsets 0 q, getParameterOffsets_eq q,
    queryInterpolate_eq_assemble ff q args _ (forall₂_literal_filterMap ff args hl) hc⟩

/-- Every argument of the supported set that is not a `time.Time` has a literal. -/
theorem literal_isSome_of_supported (ff : Float → List Byte) (a : Value)
    (hs : a.supported = true) (ht : ∀ t, a ≠ .time t) : (literal ff a).isSome := by
  cases a with
  | time t => exact absurd rfl (ht t)
  | bool v => cases v <;> simp [literal, writeArg]
  | bytes v => cases v <;> simp [literal, writeArg]
  | int v => simp [Value.supported] at hs
  | other t => simp [Value.supported] at hs
  | _ => simp [literal, writeArg]

/-- When the loop of `queryInterpolate` returns an error, it returns the empty
string with it. -/
theorem queryInterpolateLoop_error_empty (ff : Float → List Byte) (s : stmt)
    (args : List Value) :
    ∀ (n : Nat) (i : Int) (result str : List Byte) (e : DriverError),
      queryInterpolateLoop ff s args n i result = .returned str (some e) → str = [] := by
  induction args with
  | nil =>
    intro n i result str e h
    rw [queryInterpolateLoop] at h
    split at h
    · split at h <;> simp at h
    · simp at h
  | cons arg args ih =>
    intro n i result str e h
    rw [queryInterpolateLoop] at h
    split at h
    · simp at h
    · split at h
      · simp at h
      · split at h
        · exact ih _ _ _ _ _ h
        · simp only [Outcome.returned.injEq] at h
          exact h.1.symm
        · simp at h

theorem escapeSpec_count_marker (v : List Byte) :
    (escapeSpec v).count marker = v.count marker := by
  induction v with
  | nil => rfl
  | cons c rest ih =>
    have hc : (escapeImage c).count marker = [c].count marker := by
      have h := escapeSwitch_eq [] c
      rw [List.nil_append] at h
      rw [← h]
      unfold escapeSwitch
      split_ifs with h0 h1 h2 h3 h4 h5 h6
      · subst h0; decide
      · subst h1; decide
      · subst h2; decide
      · subst h3; decide
      · subst h4; decide
      · subst h5; decide
      · subst h6; decide
      · rfl
    rw [escapeSpec, List.count_append, hc, ih, ← List.count_append]
    rfl

/-! ## The claims on `queryInterpolate` -/

/-- C1: the failing input. The template `SELECT * FROM abc WHERE blah = ?` has one
marker, at offset 31, and `time.Date(10000, 1, 1, 0, 0, 0, 0, time.UTC)` is one
argument of the supported set, yet `queryInterpolate` does not return: the index
`digits10[year100]` with `year100 = 100` is out of range. -/
theorem queryInterpolate_year_10000_panics (ff : Float → List Byte) :
    getParameterOffsets (ascii "SELECT * FROM abc WHERE blah = ?") = some [31] ∧
      (Value.time (Time.Date 10000 1 1 0 0 0 0)).supported = true ∧
      queryInterpolate ff ⟨ascii "SELECT * FROM abc WHERE blah = ?", [31]⟩
        [.time (Time.Date 10000 1 1 0 0 0 0)] = .panicked :=
  ⟨by decide, by decide, rfl⟩

/-- C2: when the number of arguments differs from the number of offsets of the
statement, `queryInterpolate` returns the empty string and `ErrSkip`. -/
theorem queryInterpolate_count_mismatch (ff : Float → List Byte) (s : stmt)
    (args : List Value) (h : args.length ≠ s.paramOffsets.length) :
    queryInterpolate ff s args = .returned [] (some .ErrSkip) := by
  unfold queryInterpolate
  rw [if_pos h]

theorem queryInterpolate_count_mismatch_witness :
    ([Value.string (ascii "def"), Value.string (ascii "efg")].length ≠
        (stmt.mk (ascii "SELECT * FROM abc WHERE blah = ?") [31]).paramOffsets.length) ∧
      queryInterpolate (fun _ => []) ⟨ascii "SELECT * FROM abc WHERE blah = ?", [31]⟩
        [.string (ascii "def"), .string (ascii "efg")] = .returned [] (some .ErrSkip) :=
  ⟨by decide, queryInterpolate_count_mismatch _ _ _ (by decide)⟩

/-- C3: the failing input. The template `SELECT * FROM abc WHERE foo = ? and bar = ?`
has its markers at the offsets 30 and 42, and the second argument, a plain `int`, is
outside the supported set, yet `queryInterpolate` returns no error: it panics on
the first argument, `time.Date(10000, 1, 1, 0, 0, 0, 0, time.UTC)`, before it
reaches the second. -/
theorem queryInterpolate_unsupported_after_year_10000_panics (ff : Float → List Byte) :
    getParameterOffsets (ascii "SELECT * FROM abc WHERE foo = ? and bar = ?") = some [30, 42] ∧
      (Value.int 8).supported = false ∧
      queryInterpolate ff ⟨ascii "SELECT * FROM abc WHERE foo = ? and bar = ?", [30, 42]⟩
        [.time (Time.Date 10000 1 1 0 0 0 0), .int 8] = .panicked :=
  ⟨by decide, by decide, rfl⟩

/-- C4: whenever `queryInterpolate` returns an error, the string it returns with
it is empty. -/
theorem queryInterpolate_error_empty (ff : Float → List Byte) (s : stmt) (args : List Value)
    (str : List Byte) (e : DriverError)
    (h : queryInterpolate ff s args = .returned str (some e)) : str = [] := by
  unfold queryInterpolate at h
  split_ifs at h
  · simp only [Outcome.returned.injEq] at h
    exact h.1.symm
  · simp at h
  · exact queryInterpolateLoop_error_empty ff s args _ _ _ _ _ h

theorem queryInterpolate_error_empty_witness :
    queryInterpolate (fun _ => []) ⟨ascii "SELECT * FROM abc WHERE foo = ? and bar = ?", [30, 42]⟩
        [.string (ascii "abc"), .int 8] = .returned [] (some .ErrSkip) ∧
      ([] : List Byte) = [] :=
  ⟨by decide, queryInterpolate_error_empty (fun _ => [])
    ⟨ascii "SELECT * FROM abc WHERE foo = ? and bar = ?", [30, 42]⟩
    [.string (ascii "abc"), .int 8] [] .ErrSkip (by decide)⟩

/-- C5: for a query text without a `?` byte, `queryInterpolate` with the offsets of
`getParameterOffsets` and no argument returns the query text itself and no error. -/
theorem queryInterpolate_no_marker (ff : Float → List Byte) (q : List Byte)
    (h : marker ∉ q) :
    ∃ offs, getParameterOffsets q = some offs ∧
      queryInterpolate ff ⟨q, offs⟩ [] = .returned q none := by
  refine ⟨markerOffsets 0 q, getParameterOffsets_eq q, ?_⟩
  have hc : ([] : List Value).length = q.count marker := by
    rw [List.count_eq_zero.mpr h]
    rfl
  have := queryInterpolate_eq_assemble ff q [] [] List.Forall₂.nil hc
  rw [splitAtMarkers_of_not_mem q h] at this
  exact this

theorem queryInterpolate_no_marker_witness :
    marker ∉ ascii "SELECT * FROM abc WHERE blah" ∧
      ∃ offs, getParameterOffsets (ascii "SELECT * FROM abc WHERE blah") = some offs ∧
        queryInterpolate (fun _ => []) ⟨ascii "SELECT * FROM abc WHERE blah", offs⟩ [] =
          .returned (ascii "SELECT * FROM abc WHERE blah") none :=
  ⟨by decide, queryInterpolate_no_marker _ _ (by decide)⟩

/-- C10: for a query text `p ++ "?" ++ r` with no `?` in `p` or `r` and every string
argument `v`, also one that contains `?` bytes, `queryInterpolate` with the offsets
of `getParameterOffsets` returns `p ++ "'" ++ escape(v) ++ "'" ++ r`, and the
escaped text has exactly the `?` bytes of `v`: none of them is a substitution
point. -/
theorem queryInterpolate_marker_in_string (ff : Float → List Byte) (p r v : List Byte)
    (hp : marker ∉ p) (hr : marker ∉ r) :
    ∃ offs, getParameterOffsets (p ++ marker :: r) = some offs ∧
      queryInterpolate ff ⟨p ++ marker :: r, offs⟩ [.string v] =
        .returned (p ++ quote :: escapeStringBackslash [] v ++ quote :: r) none ∧
      (escapeStringBackslash [] v).count marker = v.count marker := by
  refine ⟨markerOffsets 0 (p ++ marker :: r), getParameterOffsets_eq _, ?_, ?_⟩
  · have hc : [Value.string v].length = (p ++ marker :: r).count marker := by
      rw [List.count_append, List.count_cons_self, List.count_eq_zero.mpr hp,
        List.count_eq_zero.mpr hr]
      rfl
    have hl : List.Forall₂ (fun a l => literal ff a = some l) [Value.string v]
        [quote :: escapeStringBackslash [] v ++ [quote]] := by
      refine List.Forall₂.cons ?_ List.Forall₂.nil
      simp [literal, writeArg, escapeStringBackslash_eq]
    have := queryInterpolate_eq_assemble ff _ _ _ hl hc
    rw [splitAtMarkers_append_marker p r hp, splitAtMarkers_of_not_mem r hr] at this
    rw [this]
    simp [assemble]
  · rw [escapeStringBackslash_eq, List.nil_append, escapeSpec_count_marker]

theorem queryInterpolate_marker_in_string_witness :
    (marker ∉ ascii "SELECT * FROM abc WHERE blah = " ∧ marker ∉ ascii " LIMIT 1") ∧
      ∃ offs, getParameterOffsets (ascii "SELECT * FROM abc WHERE blah = " ++
          marker :: ascii " LIMIT 1") = some offs ∧
        queryInterpolate (fun _ => [])
          ⟨ascii "SELECT * FROM abc WHERE blah = " ++ marker :: ascii " LIMIT 1", offs⟩
          [.string (ascii "who? me?")] =
          .returned (ascii "SELECT * FROM abc WHERE blah = " ++ quote ::
            escapeStringBackslash [] (ascii "who? me?") ++ quote :: ascii " LIMIT 1") none ∧
        (escapeStringBackslash [] (ascii "who? me?")).count marker =
          (ascii "who? me?").count marker :=
  ⟨⟨by decide, by decide⟩, queryInterpolate_marker_in_string _ _ _ _ (by decide) (by decide)⟩

/-! ## The claims on the literal encoder -/

/-- C11: for every string argument `v` the `switch` writes a single quote, the
escaped bytes of `v` (`escapeStringBackslash`) and a single quote; the template
`SELECT * FROM abc WHERE blah = ?` with the text `it's` gives
`SELECT * FROM abc WHERE blah = 'it\'s'`, and with `def`, CR, LF, quote it gives
`'def\r\n\''` with backslash-r, backslash-n, backslash-quote. -/
theorem writeArg_string (ff : Float → List Byte) (buf v : List Byte) :
    writeArg ff buf (.string v) =
        .wrote (buf ++ quote :: escapeStringBackslash [] v ++ [quote]) ∧
      queryInterpolate ff ⟨ascii "SELECT * FROM abc WHERE blah = ?", [31]⟩
          [.string (ascii "it's")] =
        .returned (ascii "SELECT * FROM abc WHERE blah = 'it\\'s'") none ∧
      queryInterpolate ff ⟨ascii "SELECT * FROM abc WHERE blah = ?", [31]⟩
          [.string (ascii "def\r\n'")] =
        .returned (ascii "SELECT * FROM abc WHERE blah = 'def\\r\\n\\''") none := by
  refine ⟨?_, rfl, rfl⟩
  simp [writeArg, escapeStringBackslash_eq]

/-- C12: for a `[]byte` argument the `switch` writes the unquoted `NULL` for the
nil slice and `_binary'`, the escaped bytes (`escapeBytesBackslash`) and a single
quote for every non-nil slice `b`; the empty non-nil slice gives `_binary''`. -/
theorem writeArg_bytes (ff : Float → List Byte) (buf b : List Byte) :
    writeArg ff buf (.bytes none) = .wrote (buf ++ ascii "NULL") ∧
      writeArg ff buf (.bytes (some b)) =
        .wrote (buf ++ ascii "_binary'" ++ escapeBytesBackslash [] b ++ [quote]) ∧
      writeArg ff [] (.bytes (some [])) = .wrote (ascii "_binary''") ∧
      queryInterpolate ff ⟨ascii "SELECT * FROM abc WHERE blah = ?", [31]⟩
          [.bytes (some (ascii "abcdef"))] =
        .returned (ascii "SELECT * FROM abc WHERE blah = _binary'abcdef'") none := by
  refine ⟨rfl, ?_, rfl, rfl⟩
  simp [writeArg, escapeBytesBackslash_eq]

/-- C13: for a boolean argument the `switch` writes the one character `1` when it
is true and `0` when it is false, and so neither the keyword `true` nor the keyword
`false`. -/
theorem writeArg_bool (ff : Float → List Byte) (buf : List Byte) (v : Bool) :
    writeArg ff buf (.bool v) = .wrote (buf ++ ascii (if v then "1" else "0")) ∧
      literal ff (.bool v) ≠ some (ascii "true") ∧
      literal ff (.bool v) ≠ some (ascii "false") := by
  have ht : literal ff (.bool true) = some (ascii "1") := rfl
  have hf : literal ff (.bool false) = some (ascii "0") := rfl
  cases v
  · rw [hf]
    exact ⟨rfl, by decide, by decide⟩
  · rw [ht]
    exact ⟨rfl, by decide, by decide⟩

/-- C14: for every `time.Time` argument that is the zero instant, whatever its
location, the `switch` writes `'0000-00-00'`, with its quotes. -/
theorem writeArg_zero_time (ff : Float → List Byte) (buf : List Byte) (t : Time)
    (h : t.IsZero = true) :
    writeArg ff buf (.time t) = .wrote (buf ++ ascii "'0000-00-00'") := by
  simp [writeArg, writeTime, h]

theorem writeArg_zero_time_witness :
    (Time.mk 0 0 ⟨-18000⟩).IsZero = true ∧
      writeArg (fun _ => []) (ascii "x = ") (.time (Time.mk 0 0 ⟨-18000⟩)) =
        .wrote (ascii "x = " ++ ascii "'0000-00-00'") :=
  ⟨by decide, writeArg_zero_time _ _ _ (by decide)⟩

/-- C16: the failing input. With the template `SELECT * FROM abc WHERE blah = ?`
and its scanned offset 31, `queryInterpolate` aborts for the argument
`time.Date(10000, 1, 1, 0, 0, 0, 0, time.UTC)`, where `year100 = 100` is no index
of the 100-entry table `digits10`, and for `time.Date(-1, 1, 1, 0, 0, 0, 0,
time.UTC)`, where `year1 = -1` is a negative index. -/
theorem queryInterpolate_aborts_outside_years_0_9999 (ff : Float → List Byte) :
    digits10.length = 100 ∧ digits01.length = 100 ∧
      (((Time.Date 10000 1 1 0 0 0 0).In Location.UTC).Add 500).Year = 10000 ∧
      index digits10 (Int.tdiv 10000 100) = none ∧
      queryInterpolate ff ⟨ascii "SELECT * FROM abc WHERE blah = ?", [31]⟩
        [.time (Time.Date 10000 1 1 0 0 0 0)] = .panicked ∧
      (((Time.Date (-1) 1 1 0 0 0 0).In Location.UTC).Add 500).Year = -1 ∧
      index digits10 (Int.tmod (-1) 100) = none ∧
      queryInterpolate ff ⟨ascii "SELECT * FROM abc WHERE blah = ?", [31]⟩
        [.time (Time.Date (-1) 1 1 0 0 0 0)] = .panicked :=
  ⟨by decide, by decide, by decide, by decide, rfl, by decide, by decide, rfl⟩

/-! ## The algebra of the escaper -/

theorem escapeImage_cases (c : Byte) :
    (c ∉ specialBytes ∧ escapeImage c = [c] ∧ c ≠ backslash) ∨
      (c ∈ specialBytes ∧ ∃ e, escapeImage c = [backslash, e] ∧ unescapeByte e = c) := by
  by_cases h0 : c = 0x00
  · subst h0; exact Or.inr ⟨by decide, _, rfl, by decide⟩
  by_cases h1 : c = 0x0a
  · subst h1; exact Or.inr ⟨by decide, _, rfl, by decide⟩
  by_cases h2 : c = 0x0d
  · subst h2; exact Or.inr ⟨by decide, _, rfl, by decide⟩
  by_cases h3 : c = 0x1a
  · subst h3; exact Or.inr ⟨by decide, _, rfl, by decide⟩
  by_cases h4 : c = 0x27
  · subst h4; exact Or.inr ⟨by decide, _, rfl, by decide⟩
  by_cases h5 : c = 0x22
  · subst h5; exact Or.inr ⟨by decide, _, rfl, by decide⟩
  by_cases h6 : c = 0x5c
  · subst h6; exact Or.inr ⟨by decide, _, rfl, by decide⟩
  · refine Or.inl ⟨?_, escapeImage_other c h0 h1 h2 h3 h4 h5 h6, h6⟩
    simp [specialBytes, h0, h1, h2, h3, h4, h5, h6]

theorem escapeSpec_of_no_special (v : List Byte) (h : ∀ c ∈ v, c ∉ specialBytes) :
    escapeSpec v = v := by
  induction v with
  | nil => rfl
  | cons c rest ih =>
    have hc := h c (List.mem_cons_self _ _)
    rcases escapeImage_cases c with ⟨_, himg, _⟩ | ⟨hs, _⟩
    · rw [escapeSpec, himg, ih (fun x hx => h x (List.mem_cons_of_mem _ hx))]
      rfl
    · exact absurd hs hc

theorem escapeSpec_length_ge (v : List Byte) : v.length ≤ (escapeSpec v).length := by
  induction v with
  | nil => simp [escapeSpec]
  | cons c rest ih =>
    rcases escapeImage_cases c with ⟨_, himg, _⟩ | ⟨_, e, himg, _⟩ <;>
      simp only [escapeSpec, himg, List.length_append, List.length_cons, List.length_nil] <;>
      omega

theorem escapeSpec_length_gt (v : List Byte) (h : ∃ c ∈ v, c ∈ specialBytes) :
    v.length < (escapeSpec v).length := by
  induction v with
  | nil => obtain ⟨c, hc, _⟩ := h; simp at hc
  | cons c rest ih =>
    have hge := escapeSpec_length_ge rest
    rcases escapeImage_cases c with ⟨hn, himg, _⟩ | ⟨_, e, himg, _⟩
    · have hrest : ∃ x ∈ rest, x ∈ specialBytes := by
        obtain ⟨x, hx, hxs⟩ := h
        rcases List.mem_cons.mp hx with hxc | hxr
        · subst hxc; exact absurd hxs hn
        · exact ⟨x, hxr, hxs⟩
      have := ih hrest
      simp only [escapeSpec, himg, List.length_append, List.length_cons, List.length_nil]
      omega
    · simp only [escapeSpec, himg, List.length_append, List.length_cons, List.length_nil]
      omega

theorem backslash_mem_escapeSpec (v : List Byte) (h : ∃ c ∈ v, c ∈ specialBytes) :
    backslash ∈ escapeSpec v := by
  induction v with
  | nil => obtain ⟨c, hc, _⟩ := h; simp at hc
  | cons c rest ih =>
    rcases escapeImage_cases c with ⟨hn, himg, _⟩ | ⟨_, e, himg, _⟩
    · have hrest : ∃ x ∈ rest, x ∈ specialBytes := by
        obtain ⟨x, hx, hxs⟩ := h
        rcases List.mem_cons.mp hx with hxc | hxr
        · subst hxc; exact absurd hxs hn
        · exact ⟨x, hxr, hxs⟩
      rw [escapeSpec]
      exact List.mem_append_right _ (ih hrest)
    · rw [escapeSpec, himg]
      simp

theorem unescapeSpec_escapeSpec (v : List Byte) : unescapeSpec (escapeSpec v) = v := by
  induction v with
  | nil => rfl
  | cons c rest ih =>
    rcases escapeImage_cases c with ⟨_, himg, hb⟩ | ⟨_, e, himg, he⟩
    · rw [escapeSpec, himg, List.singleton_append, unescapeSpec.eq_def]
      simp only [if_neg hb, ih]
    · rw [escapeSpec, himg]
      show unescapeSpec (backslash :: e :: escapeSpec rest) = c :: rest
      rw [unescapeSpec.eq_def]
      simp only [if_true, ih, he]

/-- C17: the claim fails at `abcdef`: the text has no special byte, its escaped
form is the text itself, and escaping that again gives the same bytes. -/
theorem escape_twice_abcdef_same :
    ¬ (escapeBytesBackslash [] (escapeBytesBackslash [] (ascii "abcdef")) ≠
      escapeBytesBackslash [] (ascii "abcdef")) := by
  decide

/-- C17, amended: escaping the escaped form of `v` again gives a result different
from the escaped form of `v` exactly when `v` contains one of the seven special
bytes. -/
theorem escape_twice_ne_iff (v : List Byte) :
    escapeBytesBackslash [] (escapeBytesBackslash [] v) ≠ escapeBytesBackslash [] v ↔
      ∃ c ∈ v, c ∈ specialBytes := by
  simp only [escapeBytesBackslash_eq, List.nil_append]
  constructor
  · intro hne
    by_contra hno
    have hall : ∀ c ∈ v, c ∉ specialBytes := fun c hc hs => hno ⟨c, hc, hs⟩
    rw [escapeSpec_of_no_special v hall, escapeSpec_of_no_special v hall] at hne
    exact hne rfl
  · intro hex heq
    have hb : ∃ c ∈ escapeSpec v, c ∈ specialBytes :=
      ⟨backslash, backslash_mem_escapeSpec v hex, by decide⟩
    have hlt := escapeSpec_length_gt (escapeSpec v) hb
    rw [heq] at hlt
    exact Nat.lt_irrefl _ hlt

/-- C19: the escaper is injective: byte sequences for which `escapeBytesBackslash`
writes the same bytes into an empty buffer are equal, and so are two strings with
the same text literal and two non-nil byte slices with the same binary literal. -/
theorem escapeBytesBackslash_injective (ff : Float → List Byte) (a b : List Byte)
    (h : escapeBytesBackslash [] a = escapeBytesBackslash [] b ∨
      literal ff (.string a) = literal ff (.string b) ∨
      literal ff (.bytes (some a)) = literal ff (.bytes (some b))) : a = b := by
  have hspec : escapeSpec a = escapeSpec b := by
    rcases h with h | h | h
    · simpa only [escapeBytesBackslash_eq, List.nil_append] using h
    · simp only [literal, writeArg, escapeStringBackslash_eq, List.nil_append, Option.some.injEq,
        List.append_assoc, List.cons_append, List.cons.injEq, true_and] at h
      exact List.append_cancel_right h
    · simp only [literal, writeArg, escapeBytesBackslash_eq, List.nil_append, Option.some.injEq,
        List.append_assoc] at h
      exact List.append_cancel_right (List.append_cancel_left h)
  rw [← unescapeSpec_escapeSpec a, ← unescapeSpec_escapeSpec b, hspec]

theorem escapeBytesBackslash_injective_witness :
    (escapeBytesBackslash [] (ascii "it's") = escapeBytesBackslash [] [0x69, 0x74, 0x27, 0x73] ∨
        literal (fun _ => []) (.string (ascii "it's")) =
          literal (fun _ => []) (.string [0x69, 0x74, 0x27, 0x73]) ∨
        literal (fun _ => []) (.bytes (some (ascii "it's"))) =
          literal (fun _ => []) (.bytes (some [0x69, 0x74, 0x27, 0x73]))) ∧
      ascii "it's" = [0x69, 0x74, 0x27, 0x73] :=
  ⟨Or.inl (by decide), escapeBytesBackslash_injective (fun _ => []) _ _ (Or.inl (by decide))⟩

/-! ## Quotes in the escaped text -/

theorem trailingBackslashes_snoc (l : List Byte) (c : Byte) :
    trailingBackslashes (l ++ [c]) = if c = backslash then trailingBackslashes l + 1 else 0 := by
  unfold trailingBackslashes
  rw [List.reverse_concat, List.takeWhile_cons]
  by_cases h : c = backslash <;> simp [h]

theorem takeWhile_snoc_of_neg (p : Byte → Bool) (x : Byte) (hx : p x = false) (a : List Byte) :
    (a ++ [x]).takeWhile p = a.takeWhile p := by
  induction a with
  | nil => simp [List.takeWhile, hx]
  | cons y a ih =>
    rw [List.cons_append, List.takeWhile_cons, List.takeWhile_cons, ih]

theorem trailingBackslashes_cons_of_ne (x : Byte) (l : List Byte) (hx : x ≠ backslash) :
    trailingBackslashes (x :: l) = trailingBackslashes l := by
  unfold trailingBackslashes
  rw [List.reverse_cons, takeWhile_snoc_of_neg _ x (by simp [hx])]

theorem snoc_eq_append_cons (l pre post : List Byte) (c x : Byte)
    (h : l ++ [c] = pre ++ x :: post) :
    (post = [] ∧ pre = l ∧ x = c) ∨ ∃ post', post = post' ++ [c] ∧ l = pre ++ x :: post' := by
  rcases List.eq_nil_or_concat post with hp | ⟨L, b, hp⟩
  · subst hp
    obtain ⟨h1, h2⟩ := List.append_inj' h rfl
    exact Or.inl ⟨rfl, h1.symm, by simpa using h2.symm⟩
  · rw [List.concat_eq_append] at hp
    subst hp
    have h' : l ++ [c] = (pre ++ x :: L) ++ [b] := by simpa using h
    obtain ⟨h1, h2⟩ := List.append_inj' h' rfl
    have hb : b = c := by simpa using h2.symm
    subst hb
    exact Or.inr ⟨L, rfl, h1⟩

theorem quotesEscaped_nil : QuotesEscaped [] := by
  intro pre c post h
  simp at h

theorem quotesEscaped_snoc (l : List Byte) (x : Byte) (hl : QuotesEscaped l)
    (hx : (x = 0x27 ∨ x = 0x22) → trailingBackslashes l % 2 = 1) :
    QuotesEscaped (l ++ [x]) := by
  intro pre c post h hc
  rcases snoc_eq_append_cons l pre post x c h with ⟨_, hpre, hcx⟩ | ⟨post', _, hl'⟩
  · subst hpre
    subst hcx
    exact hx hc
  · exact hl pre c post' hl' hc

/-- One pass through the `switch` of the escapers keeps the quotes of the buffer
escaped and the run of backslashes at its end of even length. -/
theorem escapeSwitch_quotesEscaped (buf : List Byte) (c : Byte)
    (hq : QuotesEscaped buf) (he : trailingBackslashes buf % 2 = 0) :
    QuotesEscaped (escapeSwitch buf c) ∧ trailingBackslashes (escapeSwitch buf c) % 2 = 0 := by
  have hpair : ∀ e : Byte, QuotesEscaped (buf ++ [backslash, e]) ∧
      trailingBackslashes (buf ++ [backslash, e]) % 2 = 0 := by
    intro e
    have h1 : QuotesEscaped (buf ++ [backslash]) :=
      quotesEscaped_snoc buf backslash hq (by intro h; rcases h with h | h <;> exact absurd h (by decide))
    have ht : trailingBackslashes (buf ++ [backslash]) = trailingBackslashes buf + 1 := by
      rw [trailingBackslashes_snoc, if_pos rfl]
    have hsplit : buf ++ [backslash, e] = (buf ++ [backslash]) ++ [e] := by simp
    rw [hsplit]
    refine ⟨quotesEscaped_snoc _ e h1 (fun _ => by omega), ?_⟩
    rw [trailingBackslashes_snoc]
    split_ifs <;> omega
  unfold escapeSwitch
  split_ifs with h0 h1 h2 h3 h4 h5 h6
  · exact hpair _
  · exact hpair _
  · exact hpair _
  · exact hpair _
  · exact hpair _
  · exact hpair _
  · exact hpair _
  · refine ⟨quotesEscaped_snoc buf c hq (fun h => ?_), ?_⟩
    · rcases h with h | h
      · exact absurd h h4
      · exact absurd h h5
    · have h6' : c ≠ backslash := h6
      rw [trailingBackslashes_snoc, if_neg h6']

theorem escapeBytesBackslash_quotesEscaped (v : List Byte) :
    ∀ buf : List Byte, QuotesEscaped buf → trailingBackslashes buf % 2 = 0 →
      QuotesEscaped (escapeBytesBackslash buf v) ∧
        trailingBackslashes (escapeBytesBackslash buf v) % 2 = 0 := by
  induction v with
  | nil => intro buf hq he; exact ⟨hq, he⟩
  | cons c rest ih =>
    intro buf hq he
    obtain ⟨hq', he'⟩ := escapeSwitch_quotesEscaped buf c hq he
    exact ih _ hq' he'

/-- C18: in what `escapeBytesBackslash` and `escapeStringBackslash` write for `v`,
every single-quote and every double-quote byte comes right after a run of
backslashes of odd length, and the output ends in a run of backslashes of even
length; hence in the text literal `'` ++ escape(v) ++ `'` a single quote after
the opening one has a run of backslashes of even length before it exactly when it
is the final quote. -/
theorem escape_quotes_escaped (v : List Byte) :
    QuotesEscaped (escapeBytesBackslash [] v) ∧
      trailingBackslashes (escapeBytesBackslash [] v) % 2 = 0 ∧
      QuotesEscaped (escapeStringBackslash [] v) ∧
      trailingBackslashes (escapeStringBackslash [] v) % 2 = 0 ∧
      ∀ pre post : List Byte,
        quote :: escapeStringBackslash [] v ++ [quote] = pre ++ quote :: post → pre ≠ [] →
          (trailingBackslashes pre % 2 = 0 ↔ post = []) := by
  obtain ⟨hq, he⟩ := escapeBytesBackslash_quotesEscaped v [] quotesEscaped_nil (by decide)
  have hs : escapeStringBackslash [] v = escapeBytesBackslash [] v := by
    rw [escapeStringBackslash_eq, escapeBytesBackslash_eq]
  rw [hs]
  refine ⟨hq, he, hq, he, ?_⟩
  intro pre post h hpre
  cases pre with
  | nil => exact absurd rfl hpre
  | cons p0 pre' =>
    rw [List.cons_append, List.cons_append] at h
    obtain ⟨hp0, htail⟩ := List.cons.inj h
    subst hp0
    have hne : quote ≠ backslash := by decide
    rw [trailingBackslashes_cons_of_ne quote pre' hne]
    rcases snoc_eq_append_cons _ pre' post quote quote htail with ⟨hpost, hp, _⟩ | ⟨post', hpost, hout⟩
    · subst hp
      exact ⟨fun _ => hpost, fun _ => he⟩
    · have hodd := hq pre' quote post' hout (Or.inl rfl)
      constructor
      · intro h0
        omega
      · intro hnil
        rw [hnil] at hpost
        simp at hpost

/-! ## The fields of a time -/

theorem yearDay_range (days : Int) :
    0 ≤ (Time.yearDay days).2 ∧ (Time.yearDay days).2 ≤ 365 ∧
      ((Time.yearDay days).2 = 365 → Time.isLeap (Time.yearDay days).1 = true) := by
  simp only [Time.yearDay, Time.isLeap, decide_eq_true_eq]
  generalize hn400 : days / 146097 = n400
  have hd0 : 0 ≤ days - 146097 * n400 ∧ days - 146097 * n400 < 146097 := by omega
  generalize days - 146097 * n400 = d0 at hd0 ⊢
  generalize hn1 : d0 / 36524 = n1
  have hn1r : 0 ≤ n1 ∧ n1 ≤ 4 := by omega
  generalize hk : n1 - n1 / 4 = k
  have hkr : 0 ≤ k ∧ k ≤ 3 ∧ (n1 = 4 → k = 3) ∧ (n1 ≤ 3 → k = n1) := by omega
  have hd1 : 0 ≤ d0 - 36524 * k ∧ d0 - 36524 * k ≤ 36524 ∧
      (d0 - 36524 * k = 36524 → k = 3) := by omega
  generalize d0 - 36524 * k = d1 at hd1 ⊢
  generalize hn2 : d1 / 1461 = n2
  have hn2r : 0 ≤ n2 ∧ n2 ≤ 24 := by omega
  have hd2 : 0 ≤ d1 - 1461 * n2 ∧ d1 - 1461 * n2 ≤ 1460 ∧
      (d1 - 1461 * n2 = 1460 → n2 = 24 → k = 3) := by omega
  generalize d1 - 1461 * n2 = d2 at hd2 ⊢
  generalize hn3 : d2 / 365 = n3
  have hn3r : 0 ≤ n3 ∧ n3 ≤ 4 := by omega
  generalize hj : n3 - n3 / 4 = j
  have hjr : 0 ≤ j ∧ j ≤ 3 ∧ (n3 = 4 → j = 3) ∧ (n3 ≤ 3 → j = n3) := by omega
  refine ⟨by omega, by omega, ?_⟩
  intro h365
  have hj3 : j = 3 := by omega
  have hd2e : d2 = 1460 := by omega
  have hk3 : n2 = 24 → k = 3 := hd2.2.2 hd2e
  subst hj3
  omega

theorem monthDay_tail_range (day : Int) (h0 : 0 ≤ day) (h1 : day ≤ 364) :
    1 ≤ (if day ≥ Time.daysBefore.getD (day / 31 + 1).toNat 365
          then (day / 31 + 2, day - Time.daysBefore.getD (day / 31 + 1).toNat 365 + 1)
          else (day / 31 + 1, day - Time.daysBefore.getD (day / 31).toNat 0 + 1)).1 ∧
      (if day ≥ Time.daysBefore.getD (day / 31 + 1).toNat 365
          then (day / 31 + 2, day - Time.daysBefore.getD (day / 31 + 1).toNat 365 + 1)
          else (day / 31 + 1, day - Time.daysBefore.getD (day / 31).toNat 0 + 1)).1 ≤ 12 ∧
      1 ≤ (if day ≥ Time.daysBefore.getD (day / 31 + 1).toNat 365
          then (day / 31 + 2, day - Time.daysBefore.getD (day / 31 + 1).toNat 365 + 1)
          else (day / 31 + 1, day - Time.daysBefore.getD (day / 31).toNat 0 + 1)).2 ∧
      (if day ≥ Time.daysBefore.getD (day / 31 + 1).toNat 365
          then (day / 31 + 2, day - Time.daysBefore.getD (day / 31 + 1).toNat 365 + 1)
          else (day / 31 + 1, day - Time.daysBefore.getD (day / 31).toNat 0 + 1)).2 ≤ 31 := by
  generalize hm : day / 31 = m
  have hm0 : 0 ≤ m := by omega
  have hm11 : m ≤ 11 := by omega
  interval_cases m <;> simp [Time.daysBefore] <;> split_ifs <;> simp <;> omega

theorem monthDay_range (year yday : Int) (h0 : 0 ≤ yday) (h1 : yday ≤ 365)
    (hl : yday = 365 → Time.isLeap year = true) :
    1 ≤ (Time.monthDay year yday).1 ∧ (Time.monthDay year yday).1 ≤ 12 ∧
      1 ≤ (Time.monthDay year yday).2 ∧ (Time.monthDay year yday).2 ≤ 31 := by
  unfold Time.monthDay
  by_cases hfeb : Time.isLeap year = true ∧ yday = 31 + 29 - 1
  · rw [if_pos hfeb]
    decide
  · rw [if_neg hfeb]
    by_cases hc : Time.isLeap year = true ∧ yday > 31 + 29 - 1
    · simp only [if_pos hc]
      exact monthDay_tail_range (yday - 1) (by omega) (by omega)
    · simp only [if_neg hc]
      have hne : yday ≠ 365 := fun e => hc ⟨hl e, by omega⟩
      exact monthDay_tail_range yday h0 (by omega)

theorem time_fields_range (u : Time) :
    1 ≤ u.Month ∧ u.Month ≤ 12 ∧ 1 ≤ u.Day ∧ u.Day ≤ 31 ∧ 0 ≤ u.Hour ∧ u.Hour ≤ 23 ∧
      0 ≤ u.Minute ∧ u.Minute ≤ 59 ∧ 0 ≤ u.Second ∧ u.Second ≤ 59 ∧
      0 ≤ u.Nanosecond ∧ u.Nanosecond ≤ 999999999 := by
  obtain ⟨h0, h1, hl⟩ := yearDay_range (u.abs / 86400)
  obtain ⟨hm0, hm1, hd0, hd1⟩ := monthDay_range u.Year _ h0 h1 hl
  have hn := u.nsec.isLt
  refine ⟨hm0, hm1, hd0, hd1, ?_, ?_, ?_, ?_, ?_, ?_, ?_, ?_⟩ <;>
    simp only [Time.Hour, Time.Minute, Time.Second, Time.Nanosecond] <;> omega

/-! ## The digit tables -/

theorem index_digits10 (n : Int) (h0 : 0 ≤ n) (h1 : n < 100) :
    index digits10 n = some (UInt8.ofNat (48 + n.toNat / 10)) := by
  have hlt : n.toNat < 100 := by omega
  simp [index, digits10, h0, List.getElem?_map, List.getElem?_range hlt]

theorem index_digits01 (n : Int) (h0 : 0 ≤ n) (h1 : n < 100) :
    index digits01 n = some (UInt8.ofNat (48 + n.toNat % 10)) := by
  have hlt : n.toNat < 100 := by omega
  simp [index, digits01, h0, List.getElem?_map, List.getElem?_range hlt]

theorem decimalDigits_two (n : Nat) :
    decimalDigits 2 n = [UInt8.ofNat (48 + n / 10 % 10), UInt8.ofNat (48 + n % 10)] := by
  simp [decimalDigits, List.range_succ]

theorem decimalDigits_four (n : Nat) :
    decimalDigits 4 n = [UInt8.ofNat (48 + n / 1000 % 10), UInt8.ofNat (48 + n / 100 % 10),
      UInt8.ofNat (48 + n / 10 % 10), UInt8.ofNat (48 + n % 10)] := by
  simp [decimalDigits, List.range_succ]

theorem decimalDigits_six (n : Nat) :
    decimalDigits 6 n = [UInt8.ofNat (48 + n / 100000 % 10), UInt8.ofNat (48 + n / 10000 % 10),
      UInt8.ofNat (48 + n / 1000 % 10), UInt8.ofNat (48 + n / 100 % 10),
      UInt8.ofNat (48 + n / 10 % 10), UInt8.ofNat (48 + n % 10)] := by
  simp [decimalDigits, List.range_succ]

/-- The two table lookups for a two-digit field give its two decimal digits. -/
theorem index_pair (n : Int) (h0 : 0 ≤ n) (h1 : n < 100) :
    [index digits10 n, index digits01 n] = (decimalDigits 2 n.toNat).map some := by
  have hd : n.toNat / 10 % 10 = n.toNat / 10 := by omega
  rw [index_digits10 n h0 h1, index_digits01 n h0 h1, decimalDigits_two, hd]
  rfl

theorem mapM_id_map_some (l : List Byte) : (l.map some).mapM id = some l := by
  induction l with
  | nil => rfl
  | cons c rest ih =>
    rw [List.map_cons, List.mapM_cons, ih]
    rfl

theorem decimalDigits_year (y : Int) (h0 : 0 ≤ y) (h1 : y ≤ 9999) :
    decimalDigits 2 (Int.tdiv y 100).toNat ++ decimalDigits 2 (Int.tmod y 100).toNat =
      decimalDigits 4 y.toNat := by
  rw [Int.tdiv_eq_ediv h0 (by decide), Int.tmod_eq_emod h0 (by decide), decimalDigits_two,
    decimalDigits_two, decimalDigits_four]
  have e1 : (y / 100).toNat / 10 % 10 = y.toNat / 1000 % 10 := by omega
  have e2 : (y / 100).toNat % 10 = y.toNat / 100 % 10 := by omega
  have e3 : (y % 100).toNat / 10 % 10 = y.toNat / 10 % 10 := by omega
  have e4 : (y % 100).toNat % 10 = y.toNat % 10 := by omega
  rw [e1, e2, e3, e4]
  rfl

theorem decimalDigits_micro (m : Int) (h0 : 0 ≤ m) (h1 : m ≤ 999999) :
    decimalDigits 2 (Int.tdiv m 10000).toNat ++
        decimalDigits 2 (Int.tmod (Int.tdiv m 100) 100).toNat ++
        decimalDigits 2 (Int.tmod m 100).toNat =
      decimalDigits 6 m.toNat := by
  have h100 : 0 ≤ m / 100 := by omega
  rw [Int.tdiv_eq_ediv h0 (by decide), Int.tdiv_eq_ediv h0 (by decide),
    Int.tmod_eq_emod h100 (by decide), Int.tmod_eq_emod h0 (by decide), decimalDigits_two,
    decimalDigits_two, decimalDigits_two, decimalDigits_six]
  have e1 : (m / 10000).toNat / 10 % 10 = m.toNat / 100000 % 10 := by omega
  have e2 : (m / 10000).toNat % 10 = m.toNat / 10000 % 10 := by omega
  have e3 : (m / 100 % 100).toNat / 10 % 10 = m.toNat / 1000 % 10 := by omega
  have e4 : (m / 100 % 100).toNat % 10 = m.toNat / 100 % 10 := by omega
  have e5 : (m % 100).toNat / 10 % 10 = m.toNat / 10 % 10 := by omega
  have e6 : (m % 100).toNat % 10 = m.toNat % 10 := by omega
  rw [e1, e2, e3, e4, e5, e6]
  rfl

/-- For a year in 0..9999 no index of the first `[]byte{...}` literal is out of
range, and the literal is the quote and the zero-padded date and time fields. -/
theorem dateBytes_eq (u : Time) (hy0 : 0 ≤ u.Year) (hy1 : u.Year ≤ 9999) :
    dateBytes u = some ([quote] ++ decimalDigits 4 u.Year.toNat ++ [0x2d] ++
      decimalDigits 2 u.Month.toNat ++ [0x2d] ++ decimalDigits 2 u.Day.toNat ++ [0x20] ++
      decimalDigits 2 u.Hour.toNat ++ [0x3a] ++ decimalDigits 2 u.Minute.toNat ++ [0x3a] ++
      decimalDigits 2 u.Second.toNat) := by
  obtain ⟨hm0, hm1, hd0, hd1, hh0, hh1, hmi0, hmi1, hs0, hs1, _, _⟩ := time_fields_range u
  have hy100 : 0 ≤ Int.tdiv u.Year 100 ∧ Int.tdiv u.Year 100 < 100 := by
    rw [Int.tdiv_eq_ediv hy0 (by decide)]
    omega
  have hy1' : 0 ≤ Int.tmod u.Year 100 ∧ Int.tmod u.Year 100 < 100 := by
    rw [Int.tmod_eq_emod hy0 (by decide)]
    omega
  unfold dateBytes
  show ([some quote] ++ [index digits10 (Int.tdiv u.Year 100), index digits01 (Int.tdiv u.Year 100)]
    ++ [index digits10 (Int.tmod u.Year 100), index digits01 (Int.tmod u.Year 100)]
    ++ [some 0x2d] ++ [index digits10 u.Month, index digits01 u.Month]
    ++ [some 0x2d] ++ [index digits10 u.Day, index digits01 u.Day]
    ++ [some 0x20] ++ [index digits10 u.Hour, index digits01 u.Hour]
    ++ [some 0x3a] ++ [index digits10 u.Minute, index digits01 u.Minute]
    ++ [some 0x3a] ++ [index digits10 u.Second, index digits01 u.Second]).mapM id = _
  rw [index_pair _ hy100.1 hy100.2, index_pair _ hy1'.1 hy1'.2, index_pair _ (by omega) (by omega),
    index_pair _ (by omega) (by omega), index_pair _ hh0 (by omega),
    index_pair _ hmi0 (by omega), index_pair _ hs0 (by omega),
    ← decimalDigits_year u.Year hy0 hy1]
  have hq : ∀ c : Byte, [some c] = [c].map some := fun _ => rfl
  simp only [hq, ← List.map_append]
  rw [mapM_id_map_some]
  simp only [List.append_assoc]

/-- For microseconds in 0..999999 no index of the second `[]byte{...}` literal is
out of range, and the literal is the point and the six digits. -/
theorem microBytes_eq (m : Int) (h0 : 0 ≤ m) (h1 : m ≤ 999999) :
    microBytes m = some (0x2e :: decimalDigits 6 m.toNat) := by
  have h100 : 0 ≤ m / 100 := by omega
  have ha : 0 ≤ Int.tdiv m 10000 ∧ Int.tdiv m 10000 < 100 := by
    rw [Int.tdiv_eq_ediv h0 (by decide)]
    omega
  have hb : 0 ≤ Int.tmod (Int.tdiv m 100) 100 ∧ Int.tmod (Int.tdiv m 100) 100 < 100 := by
    rw [Int.tdiv_eq_ediv h0 (by decide), Int.tmod_eq_emod h100 (by decide)]
    omega
  have hc : 0 ≤ Int.tmod m 100 ∧ Int.tmod m 100 < 100 := by
    rw [Int.tmod_eq_emod h0 (by decide)]
    omega
  unfold microBytes
  show ([some 0x2e] ++ [index digits10 (Int.tdiv m 10000), index digits01 (Int.tdiv m 10000)]
    ++ [index digits10 (Int.tmod (Int.tdiv m 100) 100),
      index digits01 (Int.tmod (Int.tdiv m 100) 100)]
    ++ [index digits10 (Int.tmod m 100), index digits01 (Int.tmod m 100)]).mapM id = _
  rw [index_pair _ ha.1 ha.2, index_pair _ hb.1 hb.2, index_pair _ hc.1 hc.2,
    ← decimalDigits_micro m h0 h1]
  have hq : ∀ c : Byte, [some c] = [c].map some := fun _ => rfl
  simp only [hq, ← List.map_append]
  rw [mapM_id_map_some]
  simp

/-- The time `t` moved to UTC and advanced by 500 ns: the nanoseconds grow by 500,
and from 999999500 on they wrap and the second grows by one. -/
theorem add_500 (t : Time) :
    (t.nsec.val + 500 < 1000000000 →
        ((t.In Location.UTC).Add 500).sec = t.sec ∧
          ((t.In Location.UTC).Add 500).Nanosecond = t.nsec.val + 500) ∧
      (1000000000 ≤ t.nsec.val + 500 →
        ((t.In Location.UTC).Add 500).sec = t.sec + 1 ∧
          ((t.In Location.UTC).Add 500).Nanosecond = t.nsec.val + 500 - 1000000000) := by
  have hn := t.nsec.isLt
  have h1 : Int.tdiv 500 1000000000 = 0 := by decide
  have h2 : Int.tmod 500 1000000000 = 500 := by decide
  simp only [Time.Add, Time.In, Time.Nanosecond, h1, h2]
  constructor
  · intro h
    have hlt : ¬ ((t.nsec.val : Int) + 500 ≥ 1000000000) := by omega
    have hge : ¬ ((t.nsec.val : Int) + 500 < 0) := by omega
    simp only [if_neg hlt, if_neg hge]
    omega
  · intro h
    have hge : (t.nsec.val : Int) + 500 ≥ 1000000000 := by omega
    simp only [if_pos hge]
    omega

theorem writeTime_eq (buf : List Byte) (t : Time) (hz : t.IsZero = false)
    (hy0 : 0 ≤ ((t.In Location.UTC).Add 500).Year)
    (hy1 : ((t.In Location.UTC).Add 500).Year ≤ 9999) :
    writeTime buf t = some (buf ++ timeText ((t.In Location.UTC).Add 500)) := by
  obtain ⟨_, _, _, _, _, _, _, _, _, _, hn0, hn1⟩ :=
    time_fields_range ((t.In Location.UTC).Add 500)
  have hmicro : Int.tdiv ((t.In Location.UTC).Add 500).Nanosecond 1000 =
      ((t.In Location.UTC).Add 500).Nanosecond / 1000 := Int.tdiv_eq_ediv hn0 (by decide)
  have hnat : (((t.In Location.UTC).Add 500).Nanosecond / 1000).toNat =
      ((t.In Location.UTC).Add 500).Nanosecond.toNat / 1000 := by omega
  unfold writeTime
  rw [if_neg (by simp [hz])]
  simp only [Option.bind_eq_bind, ne_eq, ite_not]
  rw [dateBytes_eq _ hy0 hy1, hmicro]
  simp only [Option.some_bind]
  by_cases hm : ((t.In Location.UTC).Add 500).Nanosecond / 1000 = 0
  · have hm' : ((t.In Location.UTC).Add 500).Nanosecond.toNat / 1000 = 0 := by omega
    simp [hm, hm', timeText]
  · have hm' : ¬ ((t.In Location.UTC).Add 500).Nanosecond.toNat / 1000 = 0 := by omega
    rw [if_neg hm, microBytes_eq _ (by omega) (by omega), hnat]
    simp [hm', timeText]

/-- C15: for every non-zero `time.Time` `t`, with `u` the time `t` moved to UTC and
advanced by 500 ns and the year of `u` in 0..9999, the `switch` writes
`'YYYY-MM-DD HH:MM:SS'` from the fields of `u`, each zero-padded to its width, and,
when the microseconds `nanosecond(u) div 1000` are not zero, `.` and their six
digits before the closing quote. The fields are in their ranges, the seconds and
microseconds of `u` are the nanoseconds of `t` rounded to the microsecond with
halves up, and a nanosecond part of 999999500 or more carries into the next second
with microseconds zero. -/
theorem writeArg_time (ff : Float → List Byte) (buf : List Byte) (t : Time)
    (hz : t.IsZero = false) (hy0 : 0 ≤ ((t.In Location.UTC).Add 500).Year)
    (hy1 : ((t.In Location.UTC).Add 500).Year ≤ 9999) :
    writeArg ff buf (.time t) = .wrote (buf ++ timeText ((t.In Location.UTC).Add 500)) ∧
      (1 ≤ ((t.In Location.UTC).Add 500).Month ∧ ((t.In Location.UTC).Add 500).Month ≤ 12 ∧
        1 ≤ ((t.In Location.UTC).Add 500).Day ∧ ((t.In Location.UTC).Add 500).Day ≤ 31 ∧
        0 ≤ ((t.In Location.UTC).Add 500).Hour ∧ ((t.In Location.UTC).Add 500).Hour ≤ 23 ∧
        0 ≤ ((t.In Location.UTC).Add 500).Minute ∧ ((t.In Location.UTC).Add 500).Minute ≤ 59 ∧
        0 ≤ ((t.In Location.UTC).Add 500).Second ∧ ((t.In Location.UTC).Add 500).Second ≤ 59 ∧
        0 ≤ ((t.In Location.UTC).Add 500).Nanosecond / 1000 ∧
        ((t.In Location.UTC).Add 500).Nanosecond / 1000 ≤ 999999) ∧
      ((t.In Location.UTC).Add 500).sec * 1000000 +
          ((t.In Location.UTC).Add 500).Nanosecond / 1000 =
        (t.sec * 1000000000 + t.Nanosecond + 500) / 1000 ∧
      (999999500 ≤ t.Nanosecond →
        ((t.In Location.UTC).Add 500).sec = t.sec + 1 ∧
          ((t.In Location.UTC).Add 500).Nanosecond / 1000 = 0) ∧
      writeArg ff [] (.time (Time.Date 1990 5 1 1 1 1 1)) =
        .wrote (ascii "'1990-05-01 01:01:01'") := by
  obtain ⟨hm0, hm1, hd0, hd1, hh0, hh1, hmi0, hmi1, hs0, hs1, hn0, hn1⟩ :=
    time_fields_range ((t.In Location.UTC).Add 500)
  obtain ⟨hlo, hhi⟩ := add_500 t
  have hn := t.nsec.isLt
  refine ⟨?_, ⟨hm0, hm1, hd0, hd1, hh0, hh1, hmi0, hmi1, hs0, hs1, by omega, by omega⟩,
    ?_, ?_, rfl⟩
  · simp only [writeArg, writeTime_eq buf t hz hy0 hy1]
  · simp only [Time.Nanosecond] at hlo hhi ⊢
    by_cases hc : t.nsec.val + 500 < 1000000000
    · obtain ⟨h1, h2⟩ := hlo hc
      rw [h1, h2]
      omega
    · obtain ⟨h1, h2⟩ := hhi (by omega)
      rw [h1, h2]
      omega
  · intro hge
    simp only [Time.Nanosecond] at hlo hhi hge ⊢
    obtain ⟨h1, h2⟩ := hhi (by omega)
    rw [h1, h2]
    omega

theorem writeArg_time_witness :
    ((Time.Date 2024 2 29 23 59 59 999999499).IsZero = false ∧
        0 ≤ (((Time.Date 2024 2 29 23 59 59 999999499).In Location.UTC).Add 500).Year ∧
        (((Time.Date 2024 2 29 23 59 59 999999499).In Location.UTC).Add 500).Year ≤ 9999 ∧
        timeText (((Time.Date 2024 2 29 23 59 59 999999499).In Location.UTC).Add 500) =
          ascii "'2024-02-29 23:59:59.999999'") ∧
      writeArg (fun _ => []) [] (.time (Time.Date 2024 2 29 23 59 59 999999499)) =
        .wrote ([] ++
          timeText (((Time.Date 2024 2 29 23 59 59 999999499).In Location.UTC).Add 500)) :=
  ⟨⟨by decide, by decide, by decide, by decide⟩,
    (writeArg_time (fun _ => []) [] (Time.Date 2024 2 29 23 59 59 999999499)
      (by decide) (by decide) (by decide)).1⟩

/-! ## The cursor of the interpolator -/

theorem literal_isSome_of_not_time (ff : Float → List Byte) (a : Value)
    (hs : a.supported = true) (ht : a.isTime = false) : (literal ff a).isSome :=
  literal_isSome_of_supported ff a hs (fun t e => by rw [e] at ht; simp [Value.isTime] at ht)

/-- The arguments are all in the supported set, or there is a first one that is
not. -/
theorem first_unsupported (args : List Value) :
    (∀ a ∈ args, a.supported = true) ∨
      ∃ pre u post, args = pre ++ u :: post ∧ (∀ a ∈ pre, a.supported = true) ∧
        u.supported = false := by
  induction args with
  | nil => exact Or.inl (fun a ha => by simp at ha)
  | cons arg args ih =>
    by_cases hs : arg.supported = true
    · rcases ih with hall | ⟨pre, u, post, he, hpre, hu⟩
      · refine Or.inl (fun a ha => ?_)
        rcases List.mem_cons.mp ha with h | h
        · rw [h]; exact hs
        · exact hall a h
      · refine Or.inr ⟨arg :: pre, u, post, by rw [he]; rfl, fun a ha => ?_, hu⟩
        rcases List.mem_cons.mp ha with h | h
        · rw [h]; exact hs
        · exact hpre a h
    · exact Or.inr ⟨[], arg, args, rfl, fun a ha => by simp at ha, by simpa using hs⟩

/-- After `k` iterations that wrote a literal, the loop of `queryInterpolate` is
in iteration `n + k` with the cursor `cursor s.paramOffsets (n + k)`. -/
theorem queryInterpolateLoop_cursor (ff : Float → List Byte) (s : stmt) (k : Nat) :
    ∀ (args : List Value) (n i : Nat) (result rest : List Byte),
      s.query.drop i = rest → s.paramOffsets.drop n = markerOffsets i rest →
      (i : Int) = cursor s.paramOffsets n → k ≤ args.length →
      args.length ≤ rest.count marker → (∀ a ∈ args.take k, (literal ff a).isSome) →
      ∃ result', queryInterpolateLoop ff s args n i result =
        queryInterpolateLoop ff s (args.drop k) (n + k) (cursor s.paramOffsets (n + k))
          result' := by
  induction k with
  | zero =>
    intro args n i result rest _ _ hi _ _ _
    exact ⟨result, by rw [List.drop_zero, Nat.add_zero, hi]⟩
  | succ k ih =>
    intro args n i result rest hq ho hi hk hc hl
    cases args with
    | nil => simp at hk
    | cons arg args =>
      have hm : marker ∈ rest := by
        rw [← List.count_pos_iff]
        simp only [List.length_cons] at hc
        omega
      obtain ⟨a, b, hab, ha, hqnext, hnext, hstep⟩ :=
        queryInterpolateLoop_step ff s n i rest hq ho hm
      subst hab
      rw [markerOffsets_append_marker a b i ha] at ho
      have hoff : s.paramOffsets[n]? = some ((i : Int) + a.length) := by
        rw [← Nat.add_zero n, ← List.getElem?_drop, ho]
        simp
      have hcur : ((i + a.length + 1 : Nat) : Int) = cursor s.paramOffsets (n + 1) := by
        simp only [cursor, List.getD_eq_getElem?_getD, hoff, Option.getD_some]
        push_cast
        rfl
      have hcnext : args.length ≤ b.count marker := by
        have hca : a.count marker = 0 := List.count_eq_zero.mpr ha
        simp only [List.length_cons, List.count_append, List.count_cons_self, hca] at hc
        omega
      obtain ⟨l, hlit⟩ := Option.isSome_iff_exists.mp (hl arg (by simp))
      obtain ⟨result', hres⟩ := ih args (n + 1) (i + a.length + 1) (result ++ a ++ l) b hqnext
        hnext hcur (by simpa using hk) hcnext
        (fun x hx => hl x (by rw [List.take_succ_cons]; exact List.mem_cons_of_mem _ hx))
      refine ⟨result', ?_⟩
      rw [hstep, writeArg_of_literal ff _ arg l hlit]
      simp only []
      rw [hres, List.drop_succ_cons, Nat.add_assoc, Nat.add_comm 1 k]

/-- With the offsets of a scan, each cursor value is at most the offset of its
iteration, which is inside the query, and the cursor after the last iteration is
at most the length of the query. -/
theorem cursor_le_offset (q : List Byte) :
    (∀ (n : Nat) (o : Int), (markerOffsets 0 q)[n]? = some o →
        0 ≤ cursor (markerOffsets 0 q) n ∧ cursor (markerOffsets 0 q) n ≤ o ∧ o < q.length) ∧
      cursor (markerOffsets 0 q) (markerOffsets 0 q).length ≤ q.length := by
  have hmem : ∀ (n : Nat) (o : Int), (markerOffsets 0 q)[n]? = some o → 0 ≤ o ∧ o < q.length := by
    intro n o h
    obtain ⟨h0, h1, _⟩ := markerOffsets_mem q 0 o (List.getElem?_mem h)
    exact ⟨h0, by omega⟩
  have hpw := List.pairwise_iff_getElem.mp (markerOffsets_pairwise q 0)
  have hcur : ∀ n : Nat, n ≤ (markerOffsets 0 q).length →
      0 ≤ cursor (markerOffsets 0 q) n ∧ cursor (markerOffsets 0 q) n ≤ q.length ∧
      ∀ (m : Nat) (o : Int), n ≤ m → (markerOffsets 0 q)[m]? = some o →
        cursor (markerOffsets 0 q) n ≤ o := by
    intro n hn
    cases n with
    | zero =>
      refine ⟨le_refl _, by simp [cursor], fun m o _ h => ?_⟩
      exact (hmem m o h).1
    | succ n =>
      have hlt : n < (markerOffsets 0 q).length := by omega
      have hget : (markerOffsets 0 q)[n]? = some (markerOffsets 0 q)[n] :=
        List.getElem?_eq_getElem hlt
      obtain ⟨h0, h1⟩ := hmem n _ hget
      simp only [cursor, List.getD_eq_getElem?_getD, hget, Option.getD_some]
      refine ⟨by omega, by omega, fun m o hnm h => ?_⟩
      obtain ⟨hm, hmo⟩ := List.getElem?_eq_some_iff.mp h
      have := hpw n m hlt hm (by omega)
      rw [hmo] at this
      omega
  refine ⟨fun n o h => ?_, (hcur _ (le_refl _)).2.1⟩
  obtain ⟨hn, _⟩ := List.getElem?_eq_some_iff.mp h
  obtain ⟨h0, _, h2⟩ := hcur n (by omega)
  exact ⟨h0, h2 n o (le_refl _) h, (hmem n o h).2⟩

/-- C20: for a query text `q`, the offsets of `getParameterOffsets` and an argument
list of matching length without a `time.Time`, at each iteration `n` the cursor
`i` satisfies `0 ≤ i ≤ paramOffsets[n] < len(q)` and after the loop `i ≤ len(q)`;
the loop is in iteration `k` with that cursor after `k` supported arguments, and
the call returns a value. -/
theorem queryInterpolate_slices_in_range (ff : Float → List Byte) (q : List Byte)
    (args : List Value) (hc : args.length = q.count marker)
    (ht : ∀ a ∈ args, a.isTime = false) :
    ∃ offs, getParameterOffsets q = some offs ∧
      (∀ (n : Nat) (o : Int), offs[n]? = some o →
        0 ≤ cursor offs n ∧ cursor offs n ≤ o ∧ o < q.length) ∧
      cursor offs offs.length ≤ q.length ∧
      (∀ k : Nat, k ≤ args.length → (∀ a ∈ args.take k, a.supported = true) →
        ∃ result, queryInterpolateLoop ff ⟨q, offs⟩ args 0 0 [] =
          queryInterpolateLoop ff ⟨q, offs⟩ (args.drop k) k (cursor offs k) result) ∧
      ∃ str err, queryInterpolate ff ⟨q, offs⟩ args = .returned str err := by
  obtain ⟨hb1, hb2⟩ := cursor_le_offset q
  refine ⟨markerOffsets 0 q, getParameterOffsets_eq q, hb1, hb2, ?_, ?_⟩
  · intro k hk hs
    have h := queryInterpolateLoop_cursor ff ⟨q, markerOffsets 0 q⟩ k args 0 0 [] q rfl rfl rfl hk
      (by omega)
      (fun a ha => literal_isSome_of_not_time ff a (hs a ha) (ht a (List.mem_of_mem_take ha)))
    simpa using h
  · rcases first_unsupported args with hall | ⟨pre, u, post, he, hpre, hu⟩
    · have hl : ∀ a ∈ args, (literal ff a).isSome :=
        fun a ha => literal_isSome_of_not_time ff a (hall a ha) (ht a ha)
      exact ⟨_, _, queryInterpolate_eq_assemble ff q args _ (forall₂_literal_filterMap ff args hl) hc⟩
    · subst he
      have hl : ∀ a ∈ pre, (literal ff a).isSome :=
        fun a ha => literal_isSome_of_not_time ff a (hpre a ha)
          (ht a (List.mem_append_left _ ha))
      exact ⟨_, _, queryInterpolate_skip ff q pre post u hl hu⟩

theorem queryInterpolate_slices_in_range_witness :
    ([Value.string (ascii "abc"), Value.int64 5].length =
        (ascii "SELECT * FROM abc WHERE foo = ? and bar = ?").count marker ∧
      ∀ a ∈ [Value.string (ascii "abc"), Value.int64 5], a.isTime = false) ∧
    ∃ offs, getParameterOffsets (ascii "SELECT * FROM abc WHERE foo = ? and bar = ?") = some offs ∧
      (∀ (n : Nat) (o : Int), offs[n]? = some o →
        0 ≤ cursor offs n ∧ cursor offs n ≤ o ∧
          o < (ascii "SELECT * FROM abc WHERE foo = ? and bar = ?").length) ∧
      cursor offs offs.length ≤ (ascii "SELECT * FROM abc WHERE foo = ? and bar = ?").length ∧
      (∀ k : Nat, k ≤ [Value.string (ascii "abc"), Value.int64 5].length →
        (∀ a ∈ [Value.string (ascii "abc"), Value.int64 5].take k, a.supported = true) →
        ∃ result, queryInterpolateLoop (fun _ => [])
            ⟨ascii "SELECT * FROM abc WHERE foo = ? and bar = ?", offs⟩
            [.string (ascii "abc"), .int64 5] 0 0 [] =
          queryInterpolateLoop (fun _ => [])
            ⟨ascii "SELECT * FROM abc WHERE foo = ? and bar = ?", offs⟩
            ([Value.string (ascii "abc"), Value.int64 5].drop k) k (cursor offs k) result) ∧
      ∃ str err, queryInterpolate (fun _ => [])
        ⟨ascii "SELECT * FROM abc WHERE foo = ? and bar = ?", offs⟩
        [.string (ascii "abc"), .int64 5] = .returned str err :=
  ⟨⟨by decide, by decide⟩,
    queryInterpolate_slices_in_range _ _ _ (by decide) (by decide)⟩

end Prestgo
